import Mathlib

/-!
Verification development for the poker session coordinator
(`game_state_manager.py` of `lzl66/client-server-poker`).

The Python module is shallowly embedded below.  Python dictionaries are
modelled as insertion-ordered association lists (`List (Nat × _)`), since
dict iteration order (insertion order) is observable through the code;
Python sets are modelled as `Finset Nat`; Python ints are `Int` for money
amounts and `Nat` for identifiers, counts and card ranks.  Fallible
methods return `Except Err _`; methods that mutate the object and can also
raise return the partially mutated state alongside the error, mirroring
Python exception semantics where mutations performed before the raise
survive.  The `cards` module is external to the repository: `Card`,
`Hand` (a value-indexed container of cards), `NUM_CARDS_IN_HAND = 5` and
`MAX_DISCARD` are modelled from the spec where noted.
-/

/-- Error kinds raised by the Python code: `GameFullError`, `KeyError`,
`ValueError`. -/
inductive Err where
  | gameFull
  | keyError
  | valueError
deriving DecidableEq, Repr

/-- Modelled from the spec: a card of the external `cards` module has an
immutable rank (`value`, 2..14) and a suit (4-valued); cards are
comparable by rank. -/
structure Card where
  value : Nat
  suit : Nat
deriving DecidableEq, Repr

/-- A roster entry: the Python player dict with keys `addr`, `name`,
`conn`.  The connection handle is opaque to the coordinator and is
modelled as a bare `Nat` token. -/
structure Player where
  addr : String × Nat
  name : String
  conn : Nat
deriving DecidableEq, Repr

/-- Lookup in a Python-dict-as-association-list: value at the first
matching key. -/
def dictGet {α : Type} (d : List (Nat × α)) (k : Nat) : Option α :=
  (d.find? (fun kv => kv.1 == k)).map (fun kv => kv.2)

/-- Key-membership test for a Python dict. -/
def dictHas {α : Type} (d : List (Nat × α)) (k : Nat) : Bool :=
  d.any (fun kv => kv.1 == k)

/-- Python `d[k] = v`: overwrite in place if the key exists, else append
(insertion order preserved). -/
def dictSet {α : Type} (d : List (Nat × α)) (k : Nat) (v : α) : List (Nat × α) :=
  if dictHas d k then d.map (fun kv => if kv.1 == k then (k, v) else kv)
  else d ++ [(k, v)]

/-- Python `del d[k]` after a successful membership check. -/
def dictDel {α : Type} (d : List (Nat × α)) (k : Nat) : List (Nat × α) :=
  d.filter (fun kv => kv.1 != k)

/-- Keys of a Python dict in insertion order. -/
def dictKeys {α : Type} (d : List (Nat × α)) : List Nat :=
  d.map (fun kv => kv.1)

/-- Modelled from the spec: the external `cards.Deck()`; its contents and
order are owned by the `cards` module and are irrelevant to every claim,
so a fresh deck is represented by the 52 rank-suit combinations. -/
def newDeck : List Card :=
  ((List.range 4).map (fun s => (List.range 13).map (fun v => Card.mk (v + 2) s))).flatten

/-- The `BetInfo` class: per-round map player id -> cumulative bet. -/
structure BetInfo where
  player_bets : List (Nat × Int)
deriving DecidableEq, Repr

/-- BetInfo.add_bet: cumulative add, creating the entry if absent. -/
def BetInfo.add_bet (b : BetInfo) (player_id : Nat) (amt : Int) : BetInfo :=
  if dictHas b.player_bets player_id then
    ⟨b.player_bets.map (fun kv => if kv.1 == player_id then (kv.1, kv.2 + amt) else kv)⟩
  else
    ⟨b.player_bets ++ [(player_id, amt)]⟩

/-- BetInfo.get_player_bet: a player's recorded bet, 0 if absent. -/
def BetInfo.get_player_bet (b : BetInfo) (player_id : Nat) : Int :=
  match dictGet b.player_bets player_id with
  | none => 0
  | some v => v

/-- BetInfo.get_pool_amt: sum of all ledger entries. -/
def BetInfo.get_pool_amt (b : BetInfo) : Int :=
  b.player_bets.foldl (fun total kv => total + kv.2) 0

/-- BetInfo.get_max_bet: the maximal bet (0 if no entries) together with
the ids that bet it, in insertion order. -/
def BetInfo.get_max_bet (b : BetInfo) : Int × List Nat :=
  let max_bet := b.player_bets.foldl (fun m kv => if kv.2 > m then kv.2 else m) 0
  (max_bet, (b.player_bets.filter (fun kv => kv.2 == max_bet)).map (fun kv => kv.1))

/-- BetInfo.reset: clears all entries. -/
def BetInfo.clearBets (_b : BetInfo) : BetInfo := ⟨[]⟩

/-- The `GameStateManager` state.  `card_val` is the per-player rank
histogram cache (`self.card_val`); a histogram is the Python 15-entry
count list, modelled as a function on bucket indices. -/
structure GSM where
  num_players : Nat
  wallet_amt : Int
  ante_amt : Int
  deck : List Card
  players : List (Nat × Player)
  final_hands : List (Nat × List Card)
  next_id : Nat
  bets : BetInfo
  turn_id : Nat
  folded_ids : Finset Nat
  left_ids : Finset Nat
  card_val : List (Nat × (Nat → Nat))

/-- GameStateManager.start (also the constructor): fresh session state. -/
def GSM.start (num_players : Nat) (wallet_amt ante_amt : Int) : GSM :=
  { num_players := num_players
    wallet_amt := wallet_amt
    ante_amt := ante_amt
    deck := newDeck
    players := []
    final_hands := []
    next_id := 1
    bets := ⟨[]⟩
    turn_id := 1
    folded_ids := ∅
    left_ids := ∅
    card_val := [] }

/-- GameStateManager.join: raises GameFull when `next_id > num_players`,
otherwise assigns id `next_id`, increments the counter and inserts the
player. -/
def GSM.join (s : GSM) (conn : Nat) (address_tup : String × Nat) (player_name : String) :
    Except Err Nat × GSM :=
  if s.num_players < s.next_id then (.error .gameFull, s)
  else
    (.ok s.next_id,
      { s with
        next_id := s.next_id + 1
        players := dictSet s.players s.next_id ⟨address_tup, player_name, conn⟩ })

/-- GameStateManager.remove_hand: `del self.final_hands[player_id]`
guarded by dict truthiness; raises KeyError when the dict is non-empty
but the key is absent. -/
def GSM.remove_hand (s : GSM) (player_id : Nat) : Except Err GSM :=
  if s.final_hands.isEmpty then .ok s
  else if dictHas s.final_hands player_id then
    .ok { s with final_hands := dictDel s.final_hands player_id }
  else .error .keyError

/-- GameStateManager.leave: adds the id to `left_ids` first, then looks
the player up (KeyError if unknown), deletes the roster entry, and calls
`remove_hand`.  On error the partially mutated state is returned. -/
def GSM.leave (s : GSM) (player_id : Nat) : Except Err Player × GSM :=
  let s1 := { s with left_ids := insert player_id s.left_ids }
  match dictGet s1.players player_id with
  | none => (.error .keyError, s1)
  | some player =>
    let s2 := { s1 with players := dictDel s1.players player_id }
    match s2.remove_hand player_id with
    | .error e => (.error e, s2)
    | .ok s3 => (.ok player, s3)

/-- GameStateManager.bet_fold: adds the id to `folded_ids`, then calls
`remove_hand` (which may raise KeyError, leaving the fold recorded). -/
def GSM.bet_fold (s : GSM) (player_id : Nat) : Except Err Unit × GSM :=
  let s1 := { s with folded_ids := insert player_id s.folded_ids }
  match s1.remove_hand player_id with
  | .error e => (.error e, s1)
  | .ok s2 => (.ok (), s2)

/-- GameStateManager.bet_info: `(pool_amt, max_bet, curr_bet)`. -/
def GSM.bet_info (s : GSM) (player_id : Nat) : Int × Int × Int :=
  (s.bets.get_pool_amt, (s.bets.get_max_bet).1, s.bets.get_player_bet player_id)

/-- GameStateManager.bet_raise: adds `(max_bet - curr_bet) + amt`. -/
def GSM.bet_raise (s : GSM) (player_id : Nat) (amt : Int) : GSM :=
  let info := s.bet_info player_id
  let call_amt := info.2.1 - info.2.2
  { s with bets := s.bets.add_bet player_id (call_amt + amt) }

/-- GameStateManager.bet_call: adds `max_bet - curr_bet`. -/
def GSM.bet_call (s : GSM) (player_id : Nat) : GSM :=
  let info := s.bet_info player_id
  let call_amt := info.2.1 - info.2.2
  { s with bets := s.bets.add_bet player_id call_amt }

/-- GameStateManager.bet_check: re-adds the player's current recorded
bet to itself. -/
def GSM.bet_check (s : GSM) (player_id : Nat) : GSM :=
  { s with bets := s.bets.add_bet player_id (s.bets.get_player_bet player_id) }

/-- GameStateManager.ack_ante: adds the configured ante amount. -/
def GSM.ack_ante (s : GSM) (player_id : Nat) : GSM :=
  { s with bets := s.bets.add_bet player_id s.ante_amt }

/-- The `while` loop of `increment_turn`, with explicit fuel.  The Python
loop scans residues `(t+1) % num_players` until one outside
`folded_ids ∪ left_ids` is found; when the guard in `increment_turn`
passed, at least two of the `num_players` residues are outside that
union, so the nearest one is reached within `num_players` steps and fuel
`num_players` computes the same result as the unbounded loop. -/
def findTurnAux (folded left : Finset Nat) (n : Nat) : Nat → Nat → Nat
  | 0, t => t
  | fuel + 1, t =>
    if t ∈ folded ∨ t ∈ left then findTurnAux folded left n fuel ((t + 1) % n)
    else t

/-- GameStateManager.increment_turn: returns unchanged when
`num_players - (len(folded_ids) + len(left_ids)) < 2` (note: configured
capacity, not current roster size), else advances the pointer cyclically
modulo `num_players` to the next id outside `folded_ids ∪ left_ids`. -/
def GSM.increment_turn (s : GSM) : GSM :=
  if s.num_players - (s.folded_ids.card + s.left_ids.card) < 2 then s
  else
    { s with
      turn_id :=
        findTurnAux s.folded_ids s.left_ids s.num_players s.num_players
          ((s.turn_id + 1) % s.num_players) }

/-- The scan loop of `is_betting_over`: walks the roster in insertion
order, skipping folded ids; `cur_bets` starts at the sentinel `-1` and
records the first non-folded player's bet; any later mismatch returns
`(False, False)`. -/
def ibLoop (bets : BetInfo) (folded : Finset Nat) :
    List (Nat × Player) → Int → Bool × Bool
  | [], _ => (true, false)
  | (p, _) :: rest, cur_bets =>
    if p ∈ folded then ibLoop bets folded rest cur_bets
    else if cur_bets = -1 then ibLoop bets folded rest (bets.get_player_bet p)
    else if cur_bets ≠ bets.get_player_bet p then (false, false)
    else ibLoop bets folded rest cur_bets

/-- GameStateManager.is_betting_over: raises GameFull when
`len(players) - len(folded_ids) < 1`; returns `(True, True)` when that
difference is 1; otherwise scans the roster with `ibLoop`.  Note both
counts are raw set/dict sizes: folded ids no longer in the roster are
still counted. -/
def GSM.is_betting_over (s : GSM) : Except Err (Bool × Bool) :=
  if s.players.length - s.folded_ids.card < 1 then .error .gameFull
  else if s.players.length - s.folded_ids.card = 1 then .ok (true, true)
  else .ok (ibLoop s.bets s.folded_ids s.players (-1))

/-- GameStateManager.store_hand: builds the player's hand from the given
cards in order (the external `Hand` is modelled from the spec as a list
container with add-by-value) and stores it. -/
def GSM.store_hand (s : GSM) (player_id : Nat) (card_list : List Card) : GSM :=
  { s with final_hands := dictSet s.final_hands player_id card_list }

/-- GameStateManager.add_cards: appends cards to an existing hand;
KeyError when the player has no stored hand. -/
def GSM.add_cards (s : GSM) (player_id : Nat) (card_list : List Card) :
    Except Err GSM :=
  match dictGet s.final_hands player_id with
  | none => .error .keyError
  | some hand =>
    .ok { s with final_hands := dictSet s.final_hands player_id (hand ++ card_list) }

/-- The Python `card_list.sort(reverse=True)`: descending by rank (the
spec's Card is comparable by rank). -/
def sortDescRank (l : List Card) : List Card :=
  l.insertionSort (fun a b => b.value ≤ a.value)

/-- GameStateManager.delete_cards: ValueError unless
`1 <= len(card_list) <= MAX_DISCARD`, then removes the cards from the
player's stored hand in descending rank order, each by value (first
occurrence).  `maxDiscard` stands for the external `cards.MAX_DISCARD`
constant, modelled from the spec as a parameter. -/
def GSM.delete_cards (maxDiscard : Nat) (s : GSM) (player_id : Nat)
    (card_list : List Card) : Except Err GSM :=
  if card_list.length < 1 then .error .valueError
  else if maxDiscard < card_list.length then .error .valueError
  else
    match dictGet s.final_hands player_id with
    | none => .error .keyError
    | some hand =>
      .ok { s with
            final_hands :=
              dictSet s.final_hands player_id
                ((sortDescRank card_list).foldl (fun h c => h.erase c) hand) }

/-- GameStateManager.reset: fresh deck, hands, ledger and folded set;
`left_ids`, `turn_id`, the roster and `card_val` are untouched. -/
def GSM.resetRound (s : GSM) : GSM :=
  { s with
    deck := newDeck
    final_hands := []
    bets := s.bets.clearBets
    folded_ids := ∅ }

/-- GameStateManager.get_counts: the rank histogram of the first
`NUM_CARDS_IN_HAND = 5` cards of the stored hand (the Python 15-entry
list `counts` with `counts[card.value] += 1`, modelled as a function on
bucket indices; theorems about it assume ranks lie in 2..14, as the
Python list indexing does). -/
def get_counts (hand : List Card) : Nat → Nat :=
  (hand.take 5).foldl
    (fun counts c => Function.update counts c.value (counts c.value + 1))
    (fun _ => 0)

/-- GameStateManager.is_flush: all of the first five cards share the
suit of card 0 (the Python code indexes `hand[0]`..`hand[4]`; an empty
hand would raise, which no claim exercises). -/
def is_flush : List Card → Bool
  | [] => false
  | c :: rest => (rest.take 4).all (fun d => d.suit == c.suit)

/-- The inner `for j in range(i+1, i+5)` scan of `is_straight`: breaks
(false) at the first `j > 14` or empty bucket, returns true exactly when
`j = i+4` is reached occupied. -/
def straightInner (counts : Nat → Nat) (i : Nat) : Bool :=
  if 14 < i + 1 ∨ counts (i + 1) = 0 then false
  else if 14 < i + 2 ∨ counts (i + 2) = 0 then false
  else if 14 < i + 3 ∨ counts (i + 3) = 0 then false
  else if 14 < i + 4 ∨ counts (i + 4) = 0 then false
  else true

/-- The outer `for i, c in enumerate(counts)` loop of `is_straight`,
with fuel 15 for the 15 histogram entries: skips empty buckets, breaks
(false) at a bucket with count > 2, returns true when the inner scan
succeeds. -/
def straightOuterAux (counts : Nat → Nat) : Nat → Nat → Bool
  | 0, _ => false
  | fuel + 1, i =>
    if counts i = 0 then straightOuterAux counts fuel (i + 1)
    else if 2 < counts i then false
    else if straightInner counts i then true
    else straightOuterAux counts fuel (i + 1)

/-- GameStateManager.is_straight over the player's cached histogram. -/
def is_straight (counts : Nat → Nat) : Bool :=
  straightOuterAux counts 15 0

/-- GameStateManager.is_straight_flush: flush and straight. -/
def is_straight_flush (hand : List Card) (counts : Nat → Nat) : Bool :=
  is_flush hand && is_straight counts

/-- GameStateManager.is_royal_flush: flush and buckets 14..10 each
exactly 1. -/
def is_royal_flush (hand : List Card) (counts : Nat → Nat) : Bool :=
  is_flush hand &&
    (counts 14 == 1 && (counts 13 == 1 && (counts 12 == 1 &&
      (counts 11 == 1 && counts 10 == 1))))

/-- GameStateManager.has_four_of_kind: some bucket count equals 4. -/
def has_four_of_kind (counts : Nat → Nat) : Bool :=
  (List.range 15).any (fun j => counts j == 4)

/-- GameStateManager.has_three_of_kind: some bucket count equals 3. -/
def has_three_of_kind (counts : Nat → Nat) : Bool :=
  (List.range 15).any (fun j => counts j == 3)

/-- The accumulation shared by `has_two_pairs` and `has_one_pair`:
`x += 1` for each bucket of count 2, `x += c // 2` for each bucket of
count > 2. -/
def pairAccum (counts : Nat → Nat) : Nat :=
  (List.range 15).foldl
    (fun x j =>
      let c := counts j
      let x1 := if c = 2 then x + 1 else x
      if 2 < c then x1 + c / 2 else x1)
    0

/-- GameStateManager.has_two_pairs: the pair accumulation equals 2. -/
def has_two_pairs (counts : Nat → Nat) : Bool :=
  pairAccum counts == 2

/-- GameStateManager.has_one_pair: the pair accumulation equals 1. -/
def has_one_pair (counts : Nat → Nat) : Bool :=
  pairAccum counts == 1

/-- GameStateManager.is_full_house: exactly one bucket of count 2 and
exactly one of count 3. -/
def is_full_house (counts : Nat → Nat) : Bool :=
  let xy :=
    (List.range 15).foldl
      (fun xy j =>
        let c := counts j
        ((if c = 2 then xy.1 + 1 else xy.1), (if c = 3 then xy.2 + 1 else xy.2)))
      ((0 : Nat), (0 : Nat))
  xy.1 == 1 && xy.2 == 1

/-- GameStateManager.score_player: category 0 (royal flush) .. 9 (high
card), first match in priority order. -/
def score_player (hand : List Card) (counts : Nat → Nat) : Nat :=
  if is_royal_flush hand counts then 0
  else if is_straight_flush hand counts then 1
  else if has_four_of_kind counts then 2
  else if is_full_house counts then 3
  else if is_flush hand then 4
  else if is_straight counts then 5
  else if has_three_of_kind counts then 6
  else if has_two_pairs counts then 7
  else if has_one_pair counts then 8
  else 9

/-- The inner `for j in range(14, -1, -1)` scan of `rank_high`: the
highest bucket index (14 down to 0) with a non-zero count, if any. -/
def findTopAux (counts : Nat → Nat) : Nat → Option Nat
  | 0 => if counts 0 ≠ 0 then some 0 else none
  | j + 1 => if counts (j + 1) ≠ 0 then some (j + 1) else findTopAux counts j

/-- Top occupied bucket of a histogram, scanning 14 down to 0. -/
def findTop (counts : Nat → Nat) : Option Nat :=
  findTopAux counts 14

/-- The candidate loop of `rank_high`: `cur_rank` starts at the sentinel
`-1`; a candidate with a strictly higher top bucket resets the winner
list, an equal one is appended, and a candidate whose histogram is
missing from `card_val` raises KeyError (a candidate with an all-zero
histogram is skipped). -/
def rhLoop (cv : List (Nat × (Nat → Nat))) :
    List Nat → Int → List Nat → Except Err (List Nat)
  | [], _, winner => .ok winner
  | i :: rest, cur_rank, winner =>
    match dictGet cv i with
    | none => .error .keyError
    | some h =>
      match findTop h with
      | none => rhLoop cv rest cur_rank winner
      | some top =>
        if cur_rank < (top : Int) then rhLoop cv rest (top : Int) [i]
        else if (top : Int) = cur_rank then rhLoop cv rest cur_rank (winner ++ [i])
        else rhLoop cv rest cur_rank winner

/-- GameStateManager.rank_high: ValueError on an empty candidate list, a
single candidate is returned unchanged, otherwise the scan loop runs. -/
def rank_high (cv : List (Nat × (Nat → Nat))) (candidates : List Nat) :
    Except Err (List Nat) :=
  if candidates.length < 1 then .error .valueError
  else if candidates.length = 1 then .ok candidates
  else rhLoop cv candidates (-1) []

/-- The first loop of `evaluate_hands`: recompute and store the rank
histogram of every player with a stored hand into `card_val`. -/
def evalCardVal (s : GSM) : List (Nat × (Nat → Nat)) :=
  s.final_hands.foldl (fun cv ph => dictSet cv ph.1 (get_counts ph.2)) s.card_val

/-- The `win_score` bucket for category `k`: ids of hand-holders whose
hand scores `k`, in `final_hands` insertion order, scored against the
freshly written histograms. -/
def winBucket (s : GSM) (cv : List (Nat × (Nat → Nat))) (k : Nat) : List Nat :=
  (s.final_hands.filter
      (fun ph => score_player ph.2 ((dictGet cv ph.1).getD (fun _ => 0)) == k)).map
    (fun ph => ph.1)

/-- GameStateManager.evaluate_hands: writes the recomputed histograms
into `card_val`, buckets the hand-holders by category, and returns the
best non-empty bucket — verbatim for a royal-flush bucket, tie-broken by
`rank_high` for categories 1..8 when the bucket holds at least two ids,
and `high_card` (that is, `rank_high` over all hand-holders) when every
bucket 0..8 is empty.  The returned state is the session with the new
`card_val`. -/
def GSM.evaluate_hands (s : GSM) : Except Err (List Nat) × GSM :=
  let cv := evalCardVal s
  let s' := { s with card_val := cv }
  let b := fun k => winBucket s cv k
  let res :=
    if b 0 ≠ [] then .ok (b 0)
    else if b 1 ≠ [] then (if (b 1).length < 2 then .ok (b 1) else rank_high cv (b 1))
    else if b 2 ≠ [] then (if (b 2).length < 2 then .ok (b 2) else rank_high cv (b 2))
    else if b 3 ≠ [] then (if (b 3).length < 2 then .ok (b 3) else rank_high cv (b 3))
    else if b 4 ≠ [] then (if (b 4).length < 2 then .ok (b 4) else rank_high cv (b 4))
    else if b 5 ≠ [] then (if (b 5).length < 2 then .ok (b 5) else rank_high cv (b 5))
    else if b 6 ≠ [] then (if (b 6).length < 2 then .ok (b 6) else rank_high cv (b 6))
    else if b 7 ≠ [] then (if (b 7).length < 2 then .ok (b 7) else rank_high cv (b 7))
    else if b 8 ≠ [] then (if (b 8).length < 2 then .ok (b 8) else rank_high cv (b 8))
    else rank_high cv (s.final_hands.map (fun ph => ph.1))
  (res, s')

/-! ### Claim-side auxiliary definitions -/

-- Derived equality test for `Except`, used by concrete evaluations.
deriving instance DecidableEq for Except

/-- Active players in the claims' sense: roster entries whose id is in
neither the folded nor the departed set. -/
def activeCount (s : GSM) : Nat :=
  (s.players.filter
      (fun pp => !decide (pp.1 ∈ s.folded_ids) && !decide (pp.1 ∈ s.left_ids))).length

/-- Ids of the non-folded roster entries, in roster (join) order. -/
def activeIds (s : GSM) : List Nat :=
  (s.players.filter (fun pp => !decide (pp.1 ∈ s.folded_ids))).map (fun pp => pp.1)

/-- Every listed player's ledger entry equals the first listed player's
entry (vacuously true of an empty list). -/
def allEqFirst (bets : BetInfo) : List Nat → Prop
  | [] => True
  | p :: rest => ∀ q ∈ rest, bets.get_player_bet q = bets.get_player_bet p

instance (bets : BetInfo) (l : List Nat) : Decidable (allEqFirst bets l) := by
  cases l with
  | nil => exact isTrue trivial
  | cons p rest => exact List.decidableBAll _ rest

/-- Top occupied histogram bucket of a candidate, through the `card_val`
cache. -/
def topOf (cv : List (Nat × (Nat → Nat))) (i : Nat) : Option Nat :=
  match dictGet cv i with
  | none => none
  | some h => findTop h

/-- Top occupied bucket with default 0, for stating `rank_high`'s
result. -/
def topD (cv : List (Nat × (Nat → Nat))) (i : Nat) : Nat :=
  (topOf cv i).getD 0

/-- Fold-maximum of the candidates' top buckets, used to state the
`rank_high` result. -/
def maxTopFold (cv : List (Nat × (Nat → Nat))) (l : List Nat) (base : Nat) : Nat :=
  l.foldl (fun m i => max m (topD cv i)) base

/-- A well-formed stored hand: exactly the 5 cards the Python evaluator
indexes, every rank in 2..14 as dealt by the external deck. -/
def wfHand (hand : List Card) : Prop :=
  hand.length = 5 ∧ ∀ c ∈ hand, 2 ≤ c.value ∧ c.value ≤ 14

/-- Session reached by: start(3), three joins, betFold(2), leave(2),
betFold(3), leave(3).  Roster is then just player 1, while `folded_ids`
still holds the departed ids 2 and 3. -/
def c1State : GSM :=
  let s0 := GSM.start 3 100 5
  let s1 := (s0.join 11 ("h1", 81) "alice").2
  let s2 := (s1.join 12 ("h2", 82) "bob").2
  let s3 := (s2.join 13 ("h3", 83) "carol").2
  let s4 := (s3.bet_fold 2).2
  let s5 := (s4.leave 2).2
  let s6 := (s5.bet_fold 3).2
  (s6.leave 3).2

/-- Session reached by: start(3), three joins, each player antes 5. -/
def w1State : GSM :=
  let s0 := GSM.start 3 100 5
  let s1 := (s0.join 11 ("h1", 81) "alice").2
  let s2 := (s1.join 12 ("h2", 82) "bob").2
  let s3 := (s2.join 13 ("h3", 83) "carol").2
  ((s3.ack_ante 1).ack_ante 2).ack_ante 3

/-- Session reached by: start(3), three joins, betFold(1): the turn
pointer (still 1) now names a folded player while two players remain
active. -/
def c2State : GSM :=
  let s0 := GSM.start 3 100 5
  let s1 := (s0.join 11 ("h1", 81) "alice").2
  let s2 := (s1.join 12 ("h2", 82) "bob").2
  let s3 := (s2.join 13 ("h3", 83) "carol").2
  (s3.bet_fold 1).2

/-- Session reached by: start(3) and three joins. -/
def w2State : GSM :=
  let s0 := GSM.start 3 100 5
  let s1 := (s0.join 11 ("h1", 81) "alice").2
  let s2 := (s1.join 12 ("h2", 82) "bob").2
  (s2.join 13 ("h3", 83) "carol").2

/-- Session reached by: start(2), two joins, leave(1).  One roster slot
is free again, but both ids have been assigned. -/
def c3State : GSM :=
  let s0 := GSM.start 2 100 5
  let s1 := (s0.join 11 ("h1", 81) "alice").2
  let s2 := (s1.join 12 ("h2", 82) "bob").2
  (s2.leave 1).2

/-- Fresh two-seat session. -/
def w3State : GSM := GSM.start 2 100 5

/-- Session with one joined player holding a stored royal flush and an
empty histogram cache. -/
def c4State : GSM :=
  (((GSM.start 2 100 5).join 11 ("h1", 81) "alice").2).store_hand 1
    [Card.mk 10 0, Card.mk 11 0, Card.mk 12 0, Card.mk 13 0, Card.mk 14 0]

/-- Session with two joined players holding stored hands: a pair of
kings for player 1 and a royal flush for player 2. -/
def w4State : GSM :=
  let s0 := GSM.start 2 100 5
  let s1 := (s0.join 11 ("h1", 81) "alice").2
  let s2 := (s1.join 12 ("h2", 82) "bob").2
  (s2.store_hand 1
      [Card.mk 13 0, Card.mk 13 1, Card.mk 2 2, Card.mk 7 3, Card.mk 9 0]).store_hand 2
    [Card.mk 10 1, Card.mk 11 1, Card.mk 12 1, Card.mk 13 1, Card.mk 14 1]

/-- Session with a stored five-card hand for player 1, used to exercise
`delete_cards`. -/
def w7State : GSM :=
  (((GSM.start 2 100 5).join 11 ("h1", 81) "alice").2).store_hand 1
    [Card.mk 4 0, Card.mk 4 1, Card.mk 9 2, Card.mk 12 3, Card.mk 14 0]

/-- A concrete histogram cache with two recorded hands: player 1 tops at
rank 9, player 2 tops at rank 14. -/
def w8cv : List (Nat × (Nat → Nat)) :=
  [(1, get_counts [Card.mk 4 0, Card.mk 4 1, Card.mk 9 2, Card.mk 5 3, Card.mk 2 0]),
   (2, get_counts [Card.mk 10 1, Card.mk 11 1, Card.mk 12 1, Card.mk 13 1, Card.mk 14 1])]

/-- Session in which only player 2 holds a stored hand, so hand removal
for player 1 raises. -/
def w10State : GSM :=
  let s0 := GSM.start 3 100 5
  let s1 := (s0.join 11 ("h1", 81) "alice").2
  let s2 := (s1.join 12 ("h2", 82) "bob").2
  s2.store_hand 2
    [Card.mk 10 1, Card.mk 11 1, Card.mk 12 1, Card.mk 13 1, Card.mk 14 1]

/-! ### Dictionary lemmas -/

theorem dictGet_cons {α : Type} (kv : Nat × α) (d : List (Nat × α)) (q : Nat) :
    dictGet (kv :: d) q = if kv.1 = q then some kv.2 else dictGet d q := by
  by_cases h : kv.1 = q
  · simp [dictGet, List.find?_cons_of_pos, h]
  · simp only [dictGet, List.find?_cons]
    have : (kv.1 == q) = false := by simp [h]
    simp [this, h]

theorem dictGet_eq_none_iff {α : Type} (d : List (Nat × α)) (k : Nat) :
    dictGet d k = none ↔ dictHas d k = false := by
  induction d with
  | nil => simp [dictGet, dictHas]
  | cons kv d ih =>
    rw [dictGet_cons]
    by_cases h : kv.1 = k
    · simp only [h, if_pos rfl]
      simp [dictHas, List.any_cons, h]
    · simp only [if_neg h]
      rw [ih]
      simp [dictHas, List.any_cons, h]

theorem dictHas_iff_mem_keys {α : Type} (d : List (Nat × α)) (k : Nat) :
    dictHas d k = true ↔ k ∈ dictKeys d := by
  simp [dictHas, dictKeys, List.any_eq_true]

theorem dictGet_append_single {α : Type} (p : Nat) (v : α) (q : Nat) :
    ∀ d : List (Nat × α), dictHas d p = false →
      dictGet (d ++ [(p, v)]) q = if q = p then some v else dictGet d q := by
  intro d
  induction d with
  | nil =>
    intro _
    rw [List.nil_append, dictGet_cons]
    simp [dictGet, eq_comm]
  | cons kv d ih =>
    intro hh
    rw [dictHas, List.any_cons, Bool.or_eq_false_iff] at hh
    have hkv : ¬ kv.1 = p := by simpa using hh.1
    have hd : dictHas d p = false := hh.2
    rw [List.cons_append, dictGet_cons, dictGet_cons, ih hd]
    by_cases h1 : kv.1 = q
    · have : ¬ q = p := fun hqp => hkv (h1.trans hqp)
      simp [h1, this]
    · simp [h1]

theorem dictGet_map_addAmt (p : Nat) (amt : Int) (q : Nat) :
    ∀ d : List (Nat × Int),
      dictGet (d.map (fun kv => if kv.1 == p then (kv.1, kv.2 + amt) else kv)) q
        = (dictGet d q).map (fun v => if q = p then v + amt else v) := by
  intro d
  induction d with
  | nil => simp [dictGet]
  | cons kv d ih =>
    have hkey : (if kv.1 == p then (kv.1, kv.2 + amt) else kv).1 = kv.1 := by
      by_cases h : kv.1 = p <;> simp [h]
    rw [List.map_cons, dictGet_cons, dictGet_cons, hkey]
    by_cases h1 : kv.1 = q
    · by_cases h2 : kv.1 = p
      · have : q = p := h1 ▸ h2
        simp [h1, h2, this]
      · have : ¬ q = p := fun hqp => h2 (h1.trans hqp)
        simp [h1, h2, this]
    · rw [if_neg h1, if_neg h1]
      exact ih

/-- The effect of `add_bet` on `get_player_bet`: the target entry grows
by `amt` (from default 0 when absent); every other entry is unchanged. -/
theorem get_player_bet_add_bet (b : BetInfo) (p : Nat) (amt : Int) (q : Nat) :
    (b.add_bet p amt).get_player_bet q =
      if q = p then b.get_player_bet p + amt else b.get_player_bet q := by
  obtain ⟨d⟩ := b
  simp only [BetInfo.add_bet]
  by_cases hh : dictHas d p
  · simp only [hh, if_pos]
    simp only [BetInfo.get_player_bet, dictGet_map_addAmt]
    by_cases hq : q = p
    · subst hq
      cases hg : dictGet d q with
      | none =>
        exact absurd ((dictGet_eq_none_iff d q).mp hg) (by simp [hh])
      | some v => simp
    · cases hg : dictGet d q with
      | none => simp [hq]
      | some v => simp [hq]
  · have hh' : dictHas d p = false := by simpa using hh
    simp only [hh', Bool.false_eq_true, if_neg, ite_false]
    simp only [BetInfo.get_player_bet, dictGet_append_single p amt q d hh']
    by_cases hq : q = p
    · subst hq
      have : dictGet d q = none := (dictGet_eq_none_iff d q).mpr hh'
      simp [this]
    · simp [hq]

/-! ### C6: bet_check doubles the recorded bet -/

/-- C6 (confirmed).  `betCheck(playerId)` adds the player's current
recorded bet to that player's own ledger entry, exactly doubling the
recorded bet (leaving it at 0 when the player has no recorded bet, since
the default entry is 0); every other player's entry is unchanged. -/
theorem bet_check_doubles (s : GSM) (p q : Nat) :
    (s.bet_check p).bets.get_player_bet q =
      if q = p then 2 * s.bets.get_player_bet p else s.bets.get_player_bet q := by
  have h := get_player_bet_add_bet s.bets p (s.bets.get_player_bet p) q
  simp only [GSM.bet_check]
  rw [h]
  by_cases hq : q = p
  · simp [hq, two_mul]
  · simp [hq]

/-! ### C9: pool equals the sum of per-player entries -/

theorem foldl_add_snd (d : List (Nat × Int)) :
    ∀ a : Int, d.foldl (fun total kv => total + kv.2) a = a + (d.map (fun kv => kv.2)).sum := by
  induction d with
  | nil => intro a; simp
  | cons kv d ih =>
    intro a
    simp only [List.foldl_cons, List.map_cons, List.sum_cons, ih]
    ring

theorem sum_gets_over_keys (d : List (Nat × Int)) (h : (dictKeys d).Nodup) :
    ((dictKeys d).map (fun k => BetInfo.get_player_bet ⟨d⟩ k)).sum
      = (d.map (fun kv => kv.2)).sum := by
  induction d with
  | nil => simp [dictKeys]
  | cons kv d ih =>
    have hkeys : dictKeys (kv :: d) = kv.1 :: dictKeys d := by simp [dictKeys]
    rw [hkeys] at h ⊢
    have hnotin : kv.1 ∉ dictKeys d := (List.nodup_cons.mp h).1
    have hnd : (dictKeys d).Nodup := (List.nodup_cons.mp h).2
    rw [List.map_cons, List.sum_cons]
    have hhead : BetInfo.get_player_bet ⟨kv :: d⟩ kv.1 = kv.2 := by
      simp [BetInfo.get_player_bet, dictGet_cons]
    have htail : (dictKeys d).map (fun k => BetInfo.get_player_bet ⟨kv :: d⟩ k)
        = (dictKeys d).map (fun k => BetInfo.get_player_bet ⟨d⟩ k) := by
      apply List.map_congr_left
      intro q hq
      have hne : ¬ kv.1 = q := fun he => hnotin (he ▸ hq)
      simp [BetInfo.get_player_bet, dictGet_cons, hne]
    rw [hhead, htail, ih hnd]
    simp

theorem dictKeys_add_bet (b : BetInfo) (p : Nat) (amt : Int) :
    dictKeys (b.add_bet p amt).player_bets
      = if dictHas b.player_bets p then dictKeys b.player_bets
        else dictKeys b.player_bets ++ [p] := by
  obtain ⟨d⟩ := b
  simp only [BetInfo.add_bet]
  by_cases hh : dictHas d p
  · simp only [hh, if_pos]
    simp only [dictKeys, List.map_map]
    apply List.map_congr_left
    intro kv _
    by_cases h : kv.1 = p <;> simp [h]
  · simp only [hh]
    simp [dictKeys]

theorem nodup_keys_add_bet (b : BetInfo) (p : Nat) (amt : Int)
    (h : (dictKeys b.player_bets).Nodup) :
    (dictKeys (b.add_bet p amt).player_bets).Nodup := by
  rw [dictKeys_add_bet]
  by_cases hh : dictHas b.player_bets p
  · simpa [hh] using h
  · have hnot : p ∉ dictKeys b.player_bets := by
      intro hm
      exact absurd ((dictHas_iff_mem_keys _ _).mpr hm) (by simp [hh])
    simp only [hh, if_neg, Bool.false_eq_true, ite_false]
    simpa [List.nodup_append] using ⟨h, hnot⟩

theorem nodup_keys_foldl_add_bet (ops : List (Nat × Int)) :
    ∀ b : BetInfo, (dictKeys b.player_bets).Nodup →
      (dictKeys ((ops.foldl (fun b pa => b.add_bet pa.1 pa.2) b).player_bets)).Nodup := by
  induction ops with
  | nil => intro b hb; simpa using hb
  | cons pa ops ih =>
    intro b hb
    exact ih (b.add_bet pa.1 pa.2) (nodup_keys_add_bet b pa.1 pa.2 hb)

/-- C9 (confirmed).  After any sequence of `addBet` calls starting from a
fresh ledger, `getPoolAmt` equals the sum of `getPlayerBet` over all known
ids (the dict keys); and each of `betRaise`, `betCall`, `betCheck` and
`ackAnte` performs exactly one `addBet` on the shared ledger, so the
invariant covers bets placed through them.  The pool is recomputed from
the per-player entries, never cached. -/
theorem pool_eq_sum_of_bets :
    (∀ ops : List (Nat × Int),
      (ops.foldl (fun b pa => b.add_bet pa.1 pa.2) (⟨[]⟩ : BetInfo)).get_pool_amt
        = ((dictKeys (ops.foldl (fun b pa => b.add_bet pa.1 pa.2) (⟨[]⟩ : BetInfo)).player_bets).map
            (fun k => (ops.foldl (fun b pa => b.add_bet pa.1 pa.2) (⟨[]⟩ : BetInfo)).get_player_bet k)).sum)
    ∧ (∀ (s : GSM) (p : Nat) (amt : Int),
        (s.bet_raise p amt).bets
          = s.bets.add_bet p ((s.bets.get_max_bet).1 - s.bets.get_player_bet p + amt))
    ∧ (∀ (s : GSM) (p : Nat),
        (s.bet_call p).bets = s.bets.add_bet p ((s.bets.get_max_bet).1 - s.bets.get_player_bet p))
    ∧ (∀ (s : GSM) (p : Nat),
        (s.bet_check p).bets = s.bets.add_bet p (s.bets.get_player_bet p))
    ∧ (∀ (s : GSM) (p : Nat), (s.ack_ante p).bets = s.bets.add_bet p s.ante_amt) := by
  have key : ∀ b : BetInfo, (dictKeys b.player_bets).Nodup →
      b.get_pool_amt = ((dictKeys b.player_bets).map (fun k => b.get_player_bet k)).sum := by
    intro b hb
    obtain ⟨d⟩ := b
    rw [sum_gets_over_keys d hb]
    simp [BetInfo.get_pool_amt, foldl_add_snd]
  refine ⟨?_, fun s p amt => rfl, fun s p => rfl, fun s p => rfl, fun s p => rfl⟩
  intro ops
  exact key _ (nodup_keys_foldl_add_bet ops ⟨[]⟩ (by simp [dictKeys]))

/-! ### C10: error paths of leave and bet_fold -/

/-- C10 (confirmed).  Calling `leave` or `betFold` for a player with no
stored hand while some hand is stored raises KeyError; and on every
raising path of `leave` (including an unknown id) the id has already
been inserted into the departed set — respectively `betFold` has already
inserted it into the folded set — before the error propagates, so the
state is mutated on error. -/
theorem leave_bet_fold_error_spec :
    (∀ (s : GSM) (p : Nat), dictGet s.final_hands p = none → s.final_hands ≠ [] →
      (s.leave p).1 = .error .keyError ∧ (s.bet_fold p).1 = .error .keyError)
    ∧ (∀ (s : GSM) (p : Nat) (e : Err), (s.leave p).1 = .error e →
        (s.leave p).2.left_ids = insert p s.left_ids)
    ∧ (∀ (s : GSM) (p : Nat) (e : Err), (s.bet_fold p).1 = .error e →
        (s.bet_fold p).2.folded_ids = insert p s.folded_ids) := by
  refine ⟨?_, ?_, ?_⟩
  · intro s p hg hne
    have hhas : dictHas s.final_hands p = false := (dictGet_eq_none_iff _ _).mp hg
    have he : s.final_hands.isEmpty = false := by
      simpa [List.isEmpty_iff] using hne
    constructor
    · simp only [GSM.leave]
      cases hp : dictGet s.players p with
      | none => rfl
      | some pl => simp [GSM.remove_hand, he, hhas]
    · simp [GSM.bet_fold, GSM.remove_hand, he, hhas]
  · intro s p e herr
    revert herr
    simp only [GSM.leave]
    cases hp : dictGet s.players p with
    | none => intro _; rfl
    | some pl =>
      simp only [GSM.remove_hand]
      by_cases he : List.isEmpty s.final_hands
      · simp [he]
      · by_cases hh : dictHas s.final_hands p
        · simp [he, hh]
        · simp [he, hh]
  · intro s p e herr
    revert herr
    simp only [GSM.bet_fold, GSM.remove_hand]
    by_cases he : List.isEmpty s.final_hands
    · simp [he]
    · by_cases hh : dictHas s.final_hands p
      · simp [he, hh]
      · simp [he, hh]

/-- Witness for the C10 theorem at a concrete session: player 2 holds
the only stored hand, so removing player 1 errors with the departed and
folded insertions already applied. -/
theorem leave_bet_fold_error_spec_witness :
    ((w10State.leave 1).1 = .error .keyError ∧ (w10State.bet_fold 1).1 = .error .keyError)
    ∧ (w10State.leave 1).2.left_ids = insert 1 w10State.left_ids
    ∧ (w10State.bet_fold 1).2.folded_ids = insert 1 w10State.folded_ids := by
  have h1 := leave_bet_fold_error_spec.1 w10State 1 (by decide) (by decide)
  exact ⟨h1,
    leave_bet_fold_error_spec.2.1 w10State 1 .keyError h1.1,
    leave_bet_fold_error_spec.2.2 w10State 1 .keyError h1.2⟩

/-! ### C3: join capacity check and id assignment -/

/-- C3 counterexample.  In the session reached by start(2), join, join,
leave(1), the roster holds a single player — not the configured capacity
of 2 — yet the next `join` raises GameFull, because the code tests the
count of ids ever assigned (`next_id`), not the roster size.  This
refutes C3's "raises GameFull if and only if the roster size already
equals the configured capacity". -/
theorem join_roster_capacity_cex :
    ((c3State.join 13 ("h3", 83) "carol").1 = .error .gameFull)
    ∧ c3State.players.length = 1 ∧ c3State.num_players = 2 := by
  refine ⟨?_, ?_, ?_⟩ <;> rfl

/-- C3 amended.  `join` raises GameFull iff the number of ids already
assigned (`next_id - 1`) has reached the configured capacity — the
roster size may be smaller after departures; when it does not raise it
returns `next_id` (assignment starts at 1), advances the counter by one
and inserts the player, so as long as every roster id is below
`next_id`, the returned id is strictly greater than every previously
assigned id and ids are never reissued. -/
theorem join_amended :
    (∀ (n : Nat) (w a : Int), (GSM.start n w a).next_id = 1)
    ∧ ∀ (s : GSM) (conn : Nat) (addr : String × Nat) (nm : String),
      (((s.join conn addr nm).1 = .error .gameFull) ↔ s.num_players < s.next_id)
      ∧ (s.num_players < s.next_id → (s.join conn addr nm).2 = s)
      ∧ (s.next_id ≤ s.num_players →
          (s.join conn addr nm).1 = .ok s.next_id
          ∧ (s.join conn addr nm).2.next_id = s.next_id + 1
          ∧ (s.join conn addr nm).2.players = dictSet s.players s.next_id ⟨addr, nm, conn⟩
          ∧ ((∀ q ∈ dictKeys s.players, q < s.next_id) →
              ∀ q ∈ dictKeys (s.join conn addr nm).2.players,
                q < (s.join conn addr nm).2.next_id ∧ (q = s.next_id ∨ q < s.next_id))) := by
  refine ⟨fun n w a => rfl, ?_⟩
  intro s conn addr nm
  by_cases hcap : s.num_players < s.next_id
  · refine ⟨?_, fun _ => ?_, fun hle => absurd hle (by omega)⟩
    · simp [GSM.join, hcap]
    · simp [GSM.join, hcap]
  · have hle' : ¬ s.num_players < s.next_id := hcap
    refine ⟨?_, fun h => absurd h hcap, fun _ => ?_⟩
    · simp [GSM.join, hle']
    · refine ⟨by simp [GSM.join, hle'], by simp [GSM.join, hle'], by simp [GSM.join, hle'], ?_⟩
      intro hqlt q hq
      have hhas : dictHas s.players s.next_id = false := by
        by_contra hcon
        have : dictHas s.players s.next_id = true := by
          cases h : dictHas s.players s.next_id
          · exact absurd h hcon
          · rfl
        have hmem := (dictHas_iff_mem_keys _ _).mp this
        exact absurd (hqlt _ hmem) (by omega)
      have hplayers : (s.join conn addr nm).2.players
          = s.players ++ [(s.next_id, ⟨addr, nm, conn⟩)] := by
        simp [GSM.join, hle', dictSet, hhas]
      have hnext : (s.join conn addr nm).2.next_id = s.next_id + 1 := by
        simp [GSM.join, hle']
      rw [hplayers] at hq
      rw [hnext]
      have : q ∈ dictKeys s.players ∨ q = s.next_id := by
        simp only [dictKeys, List.map_append, List.mem_append] at hq
        rcases hq with h | h
        · exact Or.inl (by simpa [dictKeys] using h)
        · simp at h
          exact Or.inr h
      rcases this with h | h
      · have := hqlt q h
        exact ⟨by omega, Or.inr this⟩
      · exact ⟨by omega, Or.inl h⟩

/-- Witness for the C3 amended theorem on a fresh two-seat session: the
first join succeeds with id 1 and advances the counter to 2. -/
theorem join_amended_witness :
    ((w3State.join 11 ("h1", 81) "alice").1 = .ok 1)
    ∧ ((w3State.join 11 ("h1", 81) "alice").2.next_id = 2) := by
  have h := (join_amended.2 w3State 11 ("h1", 81) "alice").2.2 (by decide)
  exact ⟨h.1, h.2.1⟩

/-! ### C2: increment_turn and the turn-pointer invariant -/

/-- C2 counterexample.  In the session reached by start(3), three joins,
betFold(1), the turn pointer still names player 1 — now in the folded
set — while two players remain active, refuting the claimed reachable
state invariant (betFold does not move the pointer off the folding
player). -/
theorem increment_turn_invariant_cex :
    c2State.turn_id ∈ c2State.folded_ids ∧ activeCount c2State = 2 := by
  refine ⟨by decide, by rfl⟩

theorem findTurnAux_avoid (folded left : Finset Nat) (n : Nat) :
    ∀ (fuel t0 : Nat), t0 < n →
      (∃ k, k < fuel ∧ (t0 + k) % n ∉ folded ∧ (t0 + k) % n ∉ left) →
      findTurnAux folded left n fuel t0 ∉ folded ∧ findTurnAux folded left n fuel t0 ∉ left := by
  intro fuel
  induction fuel with
  | zero =>
    intro t0 _ h
    obtain ⟨k, hk, _⟩ := h
    omega
  | succ fuel ih =>
    intro t0 ht0 h
    rw [findTurnAux]
    by_cases hin : t0 ∈ folded ∨ t0 ∈ left
    · rw [if_pos hin]
      obtain ⟨k, hk, hf, hl⟩ := h
      have hk0 : k ≠ 0 := by
        intro h0
        subst h0
        rw [Nat.add_zero, Nat.mod_eq_of_lt ht0] at hf hl
        rcases hin with hin | hin
        · exact hf hin
        · exact hl hin
      obtain ⟨k', rfl⟩ : ∃ k', k = k' + 1 := ⟨k - 1, by omega⟩
      have harith : ((t0 + 1) % n + k') % n = (t0 + (k' + 1)) % n := by
        rw [Nat.mod_add_mod]
        congr 1
        omega
      apply ih
      · exact Nat.mod_lt _ (by omega)
      · refine ⟨k', by omega, ?_, ?_⟩
        · rw [harith]
          exact hf
        · rw [harith]
          exact hl
    · rw [if_neg hin]
      push_neg at hin
      exact hin

theorem exists_free_residue (folded left : Finset Nat) (n : Nat)
    (h : folded.card + left.card + 2 ≤ n) (t0 : Nat) (ht0 : t0 < n) :
    ∃ k, k < n ∧ (t0 + k) % n ∉ folded ∧ (t0 + k) % n ∉ left := by
  have hn : 0 < n := by omega
  have hFcard : (folded ∪ left).card ≤ folded.card + left.card :=
    Finset.card_union_le _ _
  have hcard : 0 < (Finset.range n \ (folded ∪ left)).card := by
    have hle := Finset.le_card_sdiff (folded ∪ left) (Finset.range n)
    rw [Finset.card_range] at hle
    omega
  obtain ⟨r, hr⟩ := Finset.card_pos.mp hcard
  rw [Finset.mem_sdiff, Finset.mem_range] at hr
  obtain ⟨hrn, hrF⟩ := hr
  rw [Finset.mem_union] at hrF
  push_neg at hrF
  refine ⟨(n + r - t0) % n, Nat.mod_lt _ hn, ?_, ?_⟩ <;>
  · have key : (t0 + (n + r - t0) % n) % n = r := by
      rw [Nat.add_mod_mod]
      have h2 : t0 + (n + r - t0) = n + r := by omega
      rw [h2, Nat.add_mod_left, Nat.mod_eq_of_lt hrn]
    rw [key]
    first
    | exact hrF.1
    | exact hrF.2

/-- C2 amended.  `incrementTurn` is a no-op exactly when the configured
capacity minus `len(folded) + len(departed)` (raw set sizes, not the
count of active roster players) is below 2; whenever it does advance,
the new turn pointer avoids both the folded and the departed set.  The
original blanket invariant over all reachable states fails because
`betFold` leaves the pointer on the folding player. -/
theorem increment_turn_amended : ∀ s : GSM,
    (s.num_players - (s.folded_ids.card + s.left_ids.card) < 2 → s.increment_turn = s)
    ∧ (2 ≤ s.num_players - (s.folded_ids.card + s.left_ids.card) →
        s.increment_turn.turn_id ∉ s.folded_ids ∧ s.increment_turn.turn_id ∉ s.left_ids) := by
  intro s
  constructor
  · intro h
    simp [GSM.increment_turn, h]
  · intro h
    have hguard : ¬ (s.num_players - (s.folded_ids.card + s.left_ids.card) < 2) := by omega
    have hcards : s.folded_ids.card + s.left_ids.card + 2 ≤ s.num_players := by omega
    have hn : 0 < s.num_players := by omega
    have ht0 : (s.turn_id + 1) % s.num_players < s.num_players :=
      Nat.mod_lt _ hn
    obtain ⟨k, hk, hkf, hkl⟩ :=
      exists_free_residue s.folded_ids s.left_ids s.num_players hcards _ ht0
    have havoid :=
      findTurnAux_avoid s.folded_ids s.left_ids s.num_players s.num_players _ ht0
        ⟨k, hk, hkf, hkl⟩
    simp only [GSM.increment_turn, if_neg hguard]
    exact havoid

/-- Witness for the C2 amended theorem: with three seated players and
nobody folded or departed, `incrementTurn` advances and lands outside
both sets. -/
theorem increment_turn_amended_witness :
    (2 ≤ w2State.num_players - (w2State.folded_ids.card + w2State.left_ids.card))
    ∧ w2State.increment_turn.turn_id ∉ w2State.folded_ids := by
  have h := (increment_turn_amended w2State).2 (by decide)
  exact ⟨by decide, h.1⟩

/-! ### C1: is_betting_over -/

theorem get_player_bet_nonneg (b : BetInfo)
    (h : ∀ kv ∈ b.player_bets, 0 ≤ kv.2) (p : Nat) :
    0 ≤ b.get_player_bet p := by
  cases hg : dictGet b.player_bets p with
  | none => simp [BetInfo.get_player_bet, hg]
  | some v =>
    have hv : 0 ≤ v := by
      unfold dictGet at hg
      cases hf : b.player_bets.find? (fun kv => kv.1 == p) with
      | none => rw [hf] at hg; simp at hg
      | some kv =>
        rw [hf] at hg
        have hgv : kv.2 = v := by simpa using hg
        have hm := h kv (List.mem_of_find?_eq_some hf)
        omega
    simp [BetInfo.get_player_bet, hg, hv]

theorem all_or_filter {α : Type} (p q : α → Bool) :
    ∀ l : List α, l.all (fun x => p x || q x) = (l.filter (fun x => !p x)).all q := by
  intro l
  induction l with
  | nil => simp
  | cons a l ih =>
    cases hp : p a with
    | false =>
      have h1 : (a :: l).all (fun x => p x || q x) = (q a && l.all (fun x => p x || q x)) := by
        rw [List.all_cons]
        simp [hp]
      have h2 : List.filter (fun x => !p x) (a :: l) = a :: List.filter (fun x => !p x) l := by
        rw [List.filter_cons]
        simp [hp]
      rw [h1, h2, List.all_cons, ih]
    | true =>
      have h1 : (a :: l).all (fun x => p x || q x) = l.all (fun x => p x || q x) := by
        rw [List.all_cons]
        simp [hp]
      have h2 : List.filter (fun x => !p x) (a :: l) = List.filter (fun x => !p x) l := by
        rw [List.filter_cons]
        simp [hp]
      rw [h1, h2, ih]

theorem ibLoop_known (bets : BetInfo) (folded : Finset Nat) :
    ∀ (l : List (Nat × Player)) (c : Int), 0 ≤ c →
      ibLoop bets folded l c =
        if l.all (fun pp => decide (pp.1 ∈ folded) || decide (bets.get_player_bet pp.1 = c))
        then (true, false) else (false, false) := by
  intro l
  induction l with
  | nil => intro c _; simp [ibLoop]
  | cons pp rest ih =>
    intro c hc
    obtain ⟨p, pl⟩ := pp
    rw [List.all_cons]
    by_cases hf : p ∈ folded
    · have hstep : ibLoop bets folded ((p, pl) :: rest) c = ibLoop bets folded rest c := by
        simp [ibLoop, hf]
      have hhead : (decide (p ∈ folded) || decide (bets.get_player_bet p = c)) = true := by
        simp [hf]
      rw [hstep, ih c hc, hhead, Bool.true_and]
    · have hc1 : ¬ (c = -1) := by omega
      by_cases he : bets.get_player_bet p = c
      · have hstep : ibLoop bets folded ((p, pl) :: rest) c = ibLoop bets folded rest c := by
          simp [ibLoop, hf, hc1, he]
        have hhead : (decide (p ∈ folded) || decide (bets.get_player_bet p = c)) = true := by
          simp [he]
        rw [hstep, ih c hc, hhead, Bool.true_and]
      · have hne : c ≠ bets.get_player_bet p := fun hcon => he hcon.symm
        have hstep : ibLoop bets folded ((p, pl) :: rest) c = (false, false) := by
          simp [ibLoop, hf, hc1, hne]
        have hhead : (decide (p ∈ folded) || decide (bets.get_player_bet p = c)) = false := by
          simp [hf, he]
        rw [hstep, hhead, Bool.false_and]
        simp

theorem ibLoop_sentinel (bets : BetInfo) (folded : Finset Nat)
    (hball : ∀ kv ∈ bets.player_bets, 0 ≤ kv.2) :
    ∀ l : List (Nat × Player),
      ibLoop bets folded l (-1)
        = if allEqFirst bets ((l.filter (fun pp => !decide (pp.1 ∈ folded))).map (fun pp => pp.1))
          then (true, false) else (false, false) := by
  have hb : ∀ p, 0 ≤ bets.get_player_bet p := get_player_bet_nonneg bets hball
  intro l
  induction l with
  | nil => simp [ibLoop, allEqFirst]
  | cons pp rest ih =>
    obtain ⟨p, pl⟩ := pp
    by_cases hf : p ∈ folded
    · have hstep : ibLoop bets folded ((p, pl) :: rest) (-1) = ibLoop bets folded rest (-1) := by
        simp [ibLoop, hf]
      rw [hstep, ih]
      have hfilter : ((p, pl) :: rest).filter (fun pp => !decide (pp.1 ∈ folded))
          = rest.filter (fun pp => !decide (pp.1 ∈ folded)) := by
        rw [List.filter_cons]
        simp [hf]
      rw [hfilter]
    · have hstep : ibLoop bets folded ((p, pl) :: rest) (-1)
          = ibLoop bets folded rest (bets.get_player_bet p) := by
        simp [ibLoop, hf]
      rw [hstep, ibLoop_known bets folded rest _ (hb p)]
      have hfilter : (((p, pl) :: rest).filter (fun pp => !decide (pp.1 ∈ folded))).map
            (fun pp => pp.1)
          = p :: (rest.filter (fun pp => !decide (pp.1 ∈ folded))).map (fun pp => pp.1) := by
        rw [List.filter_cons]
        simp [hf]
      rw [hfilter]
      have hcond :
          (rest.all (fun pp => decide (pp.1 ∈ folded)
              || decide (bets.get_player_bet pp.1 = bets.get_player_bet p)) = true)
            ↔ allEqFirst bets
                (p :: (rest.filter (fun pp => !decide (pp.1 ∈ folded))).map (fun pp => pp.1)) := by
        rw [all_or_filter]
        show _ ↔ ∀ q ∈ (rest.filter (fun pp => !decide (pp.1 ∈ folded))).map (fun pp => pp.1),
            bets.get_player_bet q = bets.get_player_bet p
        rw [List.all_eq_true]
        constructor
        · intro hA q hq
          obtain ⟨pp2, hpp2, rfl⟩ := List.mem_map.mp hq
          simpa using hA pp2 hpp2
        · intro hA pp2 hpp2
          have hq : pp2.1 ∈ (rest.filter (fun pp => !decide (pp.1 ∈ folded))).map
              (fun pp => pp.1) := List.mem_map.mpr ⟨pp2, hpp2, rfl⟩
          simpa using hA pp2.1 hq
      by_cases hall : allEqFirst bets
          (p :: (rest.filter (fun pp => !decide (pp.1 ∈ folded))).map (fun pp => pp.1))
      · rw [if_pos hall, hcond.mpr hall]
        simp
      · rw [if_neg hall]
        have hA : rest.all (fun pp => decide (pp.1 ∈ folded)
            || decide (bets.get_player_bet pp.1 = bets.get_player_bet p)) = false := by
          cases hcase : rest.all (fun pp => decide (pp.1 ∈ folded)
              || decide (bets.get_player_bet pp.1 = bets.get_player_bet p))
          · rfl
          · exact absurd (hcond.mp hcase) hall
        rw [hA]
        simp

/-- C1 counterexample.  In the session reached by start(3), three joins,
betFold(2), leave(2), betFold(3), leave(3), exactly one active player
remains (player 1), yet `isBettingOver` raises the GameFull-kind error
instead of returning `(true, true)`: the code subtracts the raw folded
set size from the roster size, and ids 2 and 3 are counted in
`folded_ids` even though they have already departed the roster.  This
refutes both the claimed raise condition and the sole-survivor
condition. -/
theorem is_betting_over_roster_count_cex :
    c1State.is_betting_over = .error .gameFull ∧ activeCount c1State = 1 := by
  exact ⟨by rfl, by rfl⟩

/-- C1 amended.  With nonnegative ledger entries (ruling out collisions
with the internal `-1` sentinel), `isBettingOver` raises the
GameFull-kind error iff the roster size is at most the folded-set size
(raw sizes: folded ids that already departed still count); it returns
`(true, true)` iff the roster size exceeds the folded-set size by
exactly 1; and when the roster size exceeds it by 2 or more, it returns
`(true, false)` iff every non-folded roster player's ledger entry
(default 0) equals the first non-folded roster player's entry, and
`(false, false)` otherwise.  When every folded or departed id is still
counted correctly — i.e. folded ⊆ roster and no departures — these
counts coincide with the active-player counts of the original claim. -/
theorem is_betting_over_amended : ∀ s : GSM,
    (∀ kv ∈ s.bets.player_bets, 0 ≤ kv.2) →
    ((s.is_betting_over = .error .gameFull ↔ s.players.length ≤ s.folded_ids.card)
     ∧ (s.is_betting_over = .ok (true, true) ↔ s.players.length = s.folded_ids.card + 1)
     ∧ (s.folded_ids.card + 2 ≤ s.players.length →
         ((s.is_betting_over = .ok (true, false) ↔ allEqFirst s.bets (activeIds s))
          ∧ (s.is_betting_over = .ok (false, false) ↔ ¬ allEqFirst s.bets (activeIds s))))) := by
  intro s hb
  by_cases h1 : s.players.length - s.folded_ids.card < 1
  · have hle : s.players.length ≤ s.folded_ids.card := by omega
    have heq : s.is_betting_over = .error .gameFull := by
      simp [GSM.is_betting_over, h1]
    refine ⟨by simp [heq, hle], by simp [heq]; omega, fun hcon => absurd hcon (by omega)⟩
  · by_cases h2 : s.players.length - s.folded_ids.card = 1
    · have heq : s.is_betting_over = .ok (true, true) := by
        simp [GSM.is_betting_over, h1, h2]
      refine ⟨by simp [heq]; omega, by simp [heq]; omega, fun hcon => absurd hcon (by omega)⟩
    · have h3 : s.folded_ids.card + 2 ≤ s.players.length := by omega
      have heq : s.is_betting_over = .ok (ibLoop s.bets s.folded_ids s.players (-1)) := by
        simp [GSM.is_betting_over, h1, h2]
      rw [heq, ibLoop_sentinel s.bets s.folded_ids hb s.players]
      by_cases hall : allEqFirst s.bets (activeIds s)
      · have hall' : allEqFirst s.bets
            ((s.players.filter (fun pp => !decide (pp.1 ∈ s.folded_ids))).map
              (fun pp => pp.1)) := hall
        rw [if_pos hall']
        refine ⟨by simp; omega, by simp; omega, fun _ => ⟨by simp [hall], by simp [hall]⟩⟩
      · have hall' : ¬ allEqFirst s.bets
            ((s.players.filter (fun pp => !decide (pp.1 ∈ s.folded_ids))).map
              (fun pp => pp.1)) := hall
        rw [if_neg hall']
        refine ⟨by simp; omega, by simp; omega, fun _ => ⟨by simp [hall], by simp [hall]⟩⟩

/-- Witness for the C1 amended theorem: three seated players who all
anted 5 — betting is over with no sole survivor since the three equal
entries match the first one. -/
theorem is_betting_over_amended_witness :
    w1State.is_betting_over = .ok (true, false) :=
  (((is_betting_over_amended w1State (by decide)).2.2 (by decide)).1).mpr (by decide)

/-! ### C7: delete_cards validation and order-independence -/

theorem foldl_erase_perm {l l' : List Card} (hperm : l.Perm l') :
    ∀ hand : List Card,
      l.foldl (fun h c => h.erase c) hand = l'.foldl (fun h c => h.erase c) hand := by
  induction hperm with
  | nil => intro hand; rfl
  | cons x _ ih =>
    intro hand
    simp only [List.foldl_cons]
    exact ih (hand.erase x)
  | swap x y l =>
    intro hand
    simp only [List.foldl_cons]
    rw [List.erase_comm]
  | trans _ _ ih1 ih2 =>
    intro hand
    rw [ih1 hand, ih2 hand]

/-- C7 (confirmed; the `Hand` container and the `MAX_DISCARD` bound are
modelled from the spec, the `cards` module being outside the
repository).  `deleteCards` raises the InvalidArgument-kind error
(ValueError) iff the card list is empty or longer than the maximum
discard count; and the whole call — including the resulting hand — is
invariant under permuting the given card list, so removing the cards in
arbitrary order yields the same hand as removing them in the descending
rank order the code sorts into. -/
theorem delete_cards_spec :
    (∀ (maxDiscard : Nat) (s : GSM) (p : Nat) (card_list : List Card),
      (GSM.delete_cards maxDiscard s p card_list = .error .valueError
        ↔ card_list.length < 1 ∨ maxDiscard < card_list.length))
    ∧ (∀ (maxDiscard : Nat) (s : GSM) (p : Nat) (card_list card_list' : List Card),
        card_list'.Perm card_list →
        GSM.delete_cards maxDiscard s p card_list' = GSM.delete_cards maxDiscard s p card_list) := by
  constructor
  · intro maxDiscard s p card_list
    by_cases h1 : card_list.length < 1
    · simp [GSM.delete_cards, h1]
    · by_cases h2 : maxDiscard < card_list.length
      · simp [GSM.delete_cards, h1, h2]
      · simp only [GSM.delete_cards, if_neg h1, if_neg h2]
        cases hg : dictGet s.final_hands p with
        | none => simp [h1, h2]
        | some hand => simp [h1, h2]
  · intro maxDiscard s p card_list card_list' hperm
    have hlen : card_list'.length = card_list.length := hperm.length_eq
    by_cases h1 : card_list.length < 1
    · simp [GSM.delete_cards, h1, hlen]
    · by_cases h2 : maxDiscard < card_list.length
      · simp [GSM.delete_cards, h1, h2, hlen]
      · have h1' : ¬ card_list'.length < 1 := by omega
        have h2' : ¬ maxDiscard < card_list'.length := by omega
        simp only [GSM.delete_cards, if_neg h1, if_neg h2, if_neg h1', if_neg h2']
        cases hg : dictGet s.final_hands p with
        | none => rfl
        | some hand =>
          have hsp : (sortDescRank card_list').Perm (sortDescRank card_list) := by
            have ha : (sortDescRank card_list').Perm card_list' :=
              List.perm_insertionSort _ card_list'
            have hb : (sortDescRank card_list).Perm card_list :=
              List.perm_insertionSort _ card_list
            exact ha.trans (hperm.trans hb.symm)
          exact congrArg
            (fun h' => (Except.ok { s with final_hands := dictSet s.final_hands p h' } :
              Except Err GSM))
            (foldl_erase_perm hsp hand)

/-- Witness for the C7 theorem: deleting the same two cards of a stored
hand in either order gives identical results, and the empty discard list
is rejected with the InvalidArgument-kind error. -/
theorem delete_cards_spec_witness :
    GSM.delete_cards 3 w7State 1 [Card.mk 14 0, Card.mk 4 1]
      = GSM.delete_cards 3 w7State 1 [Card.mk 4 1, Card.mk 14 0]
    ∧ GSM.delete_cards 3 w7State 1 [] = .error .valueError := by
  constructor
  · exact delete_cards_spec.2 3 w7State 1 [Card.mk 4 1, Card.mk 14 0]
      [Card.mk 14 0, Card.mk 4 1] (by decide)
  · exact (delete_cards_spec.1 3 w7State 1 []).mpr (by decide)

/-! ### C8: rank_high -/

theorem maxTopFold_cons (cv : List (Nat × (Nat → Nat))) (i : Nat) (l : List Nat) (base : Nat) :
    maxTopFold cv (i :: l) base = maxTopFold cv l (max base (topD cv i)) := rfl

theorem maxTopFold_base_le (cv : List (Nat × (Nat → Nat))) :
    ∀ (l : List Nat) (base : Nat), base ≤ maxTopFold cv l base := by
  intro l
  induction l with
  | nil => intro base; exact Nat.le_refl base
  | cons i l ih =>
    intro base
    rw [maxTopFold_cons]
    exact le_trans (Nat.le_max_left _ _) (ih _)

theorem maxTopFold_mem_le (cv : List (Nat × (Nat → Nat))) :
    ∀ (l : List Nat) (base : Nat) (i : Nat), i ∈ l → topD cv i ≤ maxTopFold cv l base := by
  intro l
  induction l with
  | nil => intro base i hi; cases hi
  | cons j l ih =>
    intro base i hi
    rw [maxTopFold_cons]
    rcases List.mem_cons.mp hi with rfl | hi
    · exact le_trans (Nat.le_max_right _ _) (maxTopFold_base_le cv l _)
    · exact ih _ i hi

theorem maxTopFold_all_le (cv : List (Nat × (Nat → Nat))) :
    ∀ (l : List Nat) (base : Nat), (∀ i ∈ l, topD cv i ≤ base) →
      maxTopFold cv l base = base := by
  intro l
  induction l with
  | nil => intro base _; rfl
  | cons i l ih =>
    intro base h
    rw [maxTopFold_cons]
    have : max base (topD cv i) = base := Nat.max_eq_left (h i (List.mem_cons_self i l))
    rw [this]
    exact ih base (fun j hj => h j (List.mem_cons_of_mem i hj))

theorem maxTopFold_attained (cv : List (Nat × (Nat → Nat))) :
    ∀ (l : List Nat) (base : Nat),
      maxTopFold cv l base = base ∨ ∃ i ∈ l, maxTopFold cv l base = topD cv i := by
  intro l
  induction l with
  | nil => intro base; exact Or.inl rfl
  | cons i l ih =>
    intro base
    rw [maxTopFold_cons]
    rcases ih (max base (topD cv i)) with h | ⟨j, hj, hje⟩
    · rcases Nat.le_total base (topD cv i) with hle | hle
      · right
        exact ⟨i, List.mem_cons_self i l, by rw [h, Nat.max_eq_right hle]⟩
      · left
        rw [h, Nat.max_eq_left hle]
    · right
      exact ⟨j, List.mem_cons_of_mem i hj, hje⟩

theorem rhLoop_run (cv : List (Nat × (Nat → Nat))) :
    ∀ (rest : List Nat) (c : Nat) (winner : List Nat),
      (∀ i ∈ rest, (topOf cv i).isSome) →
      rhLoop cv rest (c : Int) winner =
        .ok (if rest.all (fun i => decide (topD cv i ≤ c))
             then winner ++ rest.filter (fun i => topD cv i == c)
             else rest.filter (fun i => topD cv i == maxTopFold cv rest c)) := by
  intro rest
  induction rest with
  | nil => intro c winner _; simp [rhLoop]
  | cons i rest ih =>
    intro c winner hsome
    have hi : (topOf cv i).isSome := hsome i (List.mem_cons_self i rest)
    have hrest : ∀ j ∈ rest, (topOf cv j).isSome :=
      fun j hj => hsome j (List.mem_cons_of_mem i hj)
    obtain ⟨h, hh⟩ : ∃ h, dictGet cv i = some h := by
      cases hg : dictGet cv i with
      | none => simp [topOf, hg] at hi
      | some h => exact ⟨h, rfl⟩
    obtain ⟨t, ht⟩ : ∃ t, findTop h = some t := by
      cases hf : findTop h with
      | none => simp [topOf, hh, hf] at hi
      | some t => exact ⟨t, rfl⟩
    have htD : topD cv i = t := by simp [topD, topOf, hh, ht]
    simp only [rhLoop, hh, ht]
    rcases Nat.lt_trichotomy c t with hct | hct | hct
    · have hlt : (c : Int) < (t : Int) := by exact_mod_cast hct
      rw [if_pos hlt, ih t [i] hrest]
      have hheadcond : ((i :: rest).all (fun j => decide (topD cv j ≤ c))) = false := by
        rw [List.all_cons]
        have : ¬ (topD cv i ≤ c) := by omega
        simp [this]
      rw [hheadcond, if_neg (show ¬ (false = true) from by simp)]
      have hM : maxTopFold cv (i :: rest) c = maxTopFold cv rest t := by
        rw [maxTopFold_cons, htD, Nat.max_eq_right (by omega)]
      rw [hM]
      by_cases hall : rest.all (fun j => decide (topD cv j ≤ t)) = true
      · rw [if_pos hall]
        have hallP : ∀ j ∈ rest, topD cv j ≤ t := by
          rw [List.all_eq_true] at hall
          intro j hj
          simpa using hall j hj
        have hMt : maxTopFold cv rest t = t := maxTopFold_all_le cv rest t hallP
        rw [hMt]
        have : (i :: rest).filter (fun j => topD cv j == t)
            = i :: rest.filter (fun j => topD cv j == t) := by
          rw [List.filter_cons]
          simp [htD]
        rw [this]
        rfl
      · rw [if_neg hall]
        obtain ⟨j, hj, hjt⟩ : ∃ j ∈ rest, t < topD cv j := by
          rw [List.all_eq_true] at hall
          push_neg at hall
          obtain ⟨j, hj, hjt⟩ := hall
          exact ⟨j, hj, by simpa using hjt⟩
        have hMgt : t < maxTopFold cv rest t :=
          lt_of_lt_of_le hjt (maxTopFold_mem_le cv rest t j hj)
        have : (i :: rest).filter (fun j => topD cv j == maxTopFold cv rest t)
            = rest.filter (fun j => topD cv j == maxTopFold cv rest t) := by
          rw [List.filter_cons]
          have : ¬ (topD cv i = maxTopFold cv rest t) := by omega
          simp [this]
        rw [this]
    · have hne : ¬ ((c : Int) < (t : Int)) := by
        subst hct
        omega
      have heq : (t : Int) = (c : Int) := by exact_mod_cast hct.symm
      rw [if_neg hne, if_pos heq, ih c (winner ++ [i]) hrest]
      have hheadcond : ((i :: rest).all (fun j => decide (topD cv j ≤ c)))
          = rest.all (fun j => decide (topD cv j ≤ c)) := by
        rw [List.all_cons]
        have : topD cv i ≤ c := by omega
        simp [this]
      rw [hheadcond]
      have hM : maxTopFold cv (i :: rest) c = maxTopFold cv rest c := by
        rw [maxTopFold_cons, htD, hct, Nat.max_self]
      rw [hM]
      by_cases hall : rest.all (fun j => decide (topD cv j ≤ c)) = true
      · rw [if_pos hall, if_pos hall]
        have : (i :: rest).filter (fun j => topD cv j == c)
            = i :: rest.filter (fun j => topD cv j == c) := by
          rw [List.filter_cons]
          simp [htD, hct]
        rw [this, List.append_assoc]
        rfl
      · rw [if_neg hall, if_neg hall]
        obtain ⟨j, hj, hjt⟩ : ∃ j ∈ rest, c < topD cv j := by
          rw [List.all_eq_true] at hall
          push_neg at hall
          obtain ⟨j, hj, hjt⟩ := hall
          exact ⟨j, hj, by simpa using hjt⟩
        have hMgt : c < maxTopFold cv rest c :=
          lt_of_lt_of_le hjt (maxTopFold_mem_le cv rest c j hj)
        have : (i :: rest).filter (fun j => topD cv j == maxTopFold cv rest c)
            = rest.filter (fun j => topD cv j == maxTopFold cv rest c) := by
          rw [List.filter_cons]
          have : ¬ (topD cv i = maxTopFold cv rest c) := by omega
          simp [this]
        rw [this]
    · have hne : ¬ ((c : Int) < (t : Int)) := by
        have : (t : Int) < (c : Int) := by exact_mod_cast hct
        omega
      have hne2 : ¬ ((t : Int) = (c : Int)) := by
        have : t ≠ c := by omega
        exact_mod_cast this
      rw [if_neg hne, if_neg hne2, ih c winner hrest]
      have hheadcond : ((i :: rest).all (fun j => decide (topD cv j ≤ c)))
          = rest.all (fun j => decide (topD cv j ≤ c)) := by
        rw [List.all_cons]
        have : topD cv i ≤ c := by omega
        simp [this]
      rw [hheadcond]
      have hM : maxTopFold cv (i :: rest) c = maxTopFold cv rest c := by
        rw [maxTopFold_cons, htD, Nat.max_eq_left (by omega)]
      rw [hM]
      by_cases hall : rest.all (fun j => decide (topD cv j ≤ c)) = true
      · rw [if_pos hall, if_pos hall]
        have : (i :: rest).filter (fun j => topD cv j == c)
            = rest.filter (fun j => topD cv j == c) := by
          rw [List.filter_cons]
          have : ¬ (topD cv i = c) := by omega
          simp [this]
        rw [this]
      · rw [if_neg hall, if_neg hall]
        obtain ⟨j, hj, hjt⟩ : ∃ j ∈ rest, c < topD cv j := by
          rw [List.all_eq_true] at hall
          push_neg at hall
          obtain ⟨j, hj, hjt⟩ := hall
          exact ⟨j, hj, by simpa using hjt⟩
        have hMgt : c < maxTopFold cv rest c :=
          lt_of_lt_of_le hjt (maxTopFold_mem_le cv rest c j hj)
        have : (i :: rest).filter (fun j => topD cv j == maxTopFold cv rest c)
            = rest.filter (fun j => topD cv j == maxTopFold cv rest c) := by
          rw [List.filter_cons]
          have : ¬ (topD cv i = maxTopFold cv rest c) := by omega
          simp [this]
        rw [this]

/-- C8 (confirmed).  `rankHigh` raises (ValueError) on an empty
candidate list; returns a single candidate unchanged; and on two or more
candidates over players with recorded (non-empty) rank histograms it
returns exactly the candidates whose highest occupied rank bucket equals
the maximum such rank over all candidates — all of them when several
tie, with no deeper kicker comparison. -/
theorem rank_high_spec :
    (∀ cv : List (Nat × (Nat → Nat)), rank_high cv [] = .error .valueError)
    ∧ (∀ (cv : List (Nat × (Nat → Nat))) (c : Nat), rank_high cv [c] = .ok [c])
    ∧ (∀ (cv : List (Nat × (Nat → Nat))) (cands : List Nat), 2 ≤ cands.length →
        (∀ i ∈ cands, (topOf cv i).isSome) →
        ∃ M : Nat, (∃ i ∈ cands, topD cv i = M) ∧ (∀ i ∈ cands, topD cv i ≤ M)
          ∧ rank_high cv cands = .ok (cands.filter (fun i => topD cv i == M))) := by
  refine ⟨fun cv => rfl, fun cv c => rfl, ?_⟩
  intro cv cands hlen hsome
  obtain ⟨i, rest, rfl⟩ : ∃ i rest, cands = i :: rest := by
    cases cands with
    | nil => simp at hlen
    | cons i rest => exact ⟨i, rest, rfl⟩
  have hlen' : 1 ≤ rest.length := by
    simp only [List.length_cons] at hlen
    omega
  have h1 : ¬ ((i :: rest).length < 1) := by simp
  have h2 : ¬ ((i :: rest).length = 1) := by
    simp only [List.length_cons]
    omega
  have hrk : rank_high cv (i :: rest) = rhLoop cv (i :: rest) (-1) [] := by
    rw [rank_high, if_neg h1, if_neg h2]
  have hi := hsome i (List.mem_cons_self i rest)
  have hrest : ∀ j ∈ rest, (topOf cv j).isSome :=
    fun j hj => hsome j (List.mem_cons_of_mem i hj)
  obtain ⟨h, hh⟩ : ∃ h, dictGet cv i = some h := by
    cases hg : dictGet cv i with
    | none => simp [topOf, hg] at hi
    | some h => exact ⟨h, rfl⟩
  obtain ⟨t, ht⟩ : ∃ t, findTop h = some t := by
    cases hf : findTop h with
    | none => simp [topOf, hh, hf] at hi
    | some t => exact ⟨t, rfl⟩
  have htD : topD cv i = t := by simp [topD, topOf, hh, ht]
  have hstep : rhLoop cv (i :: rest) (-1) [] = rhLoop cv rest (t : Int) [i] := by
    simp only [rhLoop, hh, ht]
    rw [if_pos (show (-1 : Int) < (t : Int) by omega)]
  rw [hrk, hstep, rhLoop_run cv rest t [i] hrest]
  by_cases hall : rest.all (fun j => decide (topD cv j ≤ t)) = true
  · rw [if_pos hall]
    refine ⟨t, ⟨i, List.mem_cons_self i rest, htD⟩, ?_, ?_⟩
    · intro j hj
      rcases List.mem_cons.mp hj with rfl | hj
      · omega
      · have := List.all_eq_true.mp hall j hj
        simpa using this
    · have hfc : (i :: rest).filter (fun j => topD cv j == t)
          = i :: rest.filter (fun j => topD cv j == t) := by
        rw [List.filter_cons]
        simp [htD]
      rw [hfc]
      rfl
  · rw [if_neg hall]
    obtain ⟨j0, hj0, hjt⟩ : ∃ j ∈ rest, t < topD cv j := by
      rw [List.all_eq_true] at hall
      push_neg at hall
      obtain ⟨j0, hj0, hjt⟩ := hall
      exact ⟨j0, hj0, by simpa using hjt⟩
    have hMgt : t < maxTopFold cv rest t :=
      lt_of_lt_of_le hjt (maxTopFold_mem_le cv rest t j0 hj0)
    obtain ⟨j1, hj1, hje⟩ : ∃ j ∈ rest, maxTopFold cv rest t = topD cv j := by
      rcases maxTopFold_attained cv rest t with hA | hA
      · exact absurd hA (by omega)
      · exact hA
    refine ⟨maxTopFold cv rest t, ⟨j1, List.mem_cons_of_mem i hj1, hje.symm⟩, ?_, ?_⟩
    · intro j hj
      rcases List.mem_cons.mp hj with rfl | hj
      · omega
      · exact maxTopFold_mem_le cv rest t j hj
    · have hfc : (i :: rest).filter (fun j => topD cv j == maxTopFold cv rest t)
          = rest.filter (fun j => topD cv j == maxTopFold cv rest t) := by
        rw [List.filter_cons]
        have : ¬ (topD cv i = maxTopFold cv rest t) := by omega
        simp [this]
      rw [hfc]

/-- Witness for the C8 theorem on a concrete histogram cache: two
candidates topping at ranks 9 and 14. -/
theorem rank_high_spec_witness :
    (2 ≤ ([1, 2] : List Nat).length)
    ∧ ∃ M : Nat, (∃ i ∈ ([1, 2] : List Nat), topD w8cv i = M)
        ∧ (∀ i ∈ ([1, 2] : List Nat), topD w8cv i ≤ M)
        ∧ rank_high w8cv [1, 2] = .ok (([1, 2] : List Nat).filter (fun i => topD w8cv i == M)) :=
  ⟨by decide, rank_high_spec.2.2 w8cv [1, 2] (by decide) (by decide)⟩

/-! ### C4: evaluate_hands and its effect on session state -/

theorem dictGet_dictSet_self {α : Type} : ∀ (d : List (Nat × α)) (k : Nat) (v : α),
    dictGet (dictSet d k v) k = some v := by
  intro d k v
  induction d with
  | nil =>
    rw [dictSet, if_neg (by simp [dictHas])]
    simp [dictGet_cons]
  | cons kv d ih =>
    by_cases h : kv.1 = k
    · have hh : dictHas (kv :: d) k = true := by simp [dictHas, List.any_cons, h]
      rw [dictSet, if_pos hh, List.map_cons]
      have hmap : (if kv.1 == k then (k, v) else kv) = (k, v) := by simp [h]
      rw [hmap, dictGet_cons, if_pos rfl]
    · cases htail : dictHas d k with
      | true =>
        have hh : dictHas (kv :: d) k = true := by
          simp [dictHas, List.any_cons]
          right
          have := htail
          simp [dictHas] at this
          exact this
        rw [dictSet, if_pos hh, List.map_cons]
        have hmap : (if kv.1 == k then (k, v) else kv) = kv := by simp [h]
        rw [hmap, dictGet_cons, if_neg h]
        have hd := ih
        rw [dictSet, if_pos htail] at hd
        exact hd
      | false =>
        have hh : dictHas (kv :: d) k = false := by
          simp [dictHas, List.any_cons, h]
          have := htail
          simp [dictHas] at this
          exact this
        rw [dictSet, if_neg (by simp [hh])]
        rw [dictGet_append_single k v k (kv :: d) hh, if_pos rfl]

theorem dictGet_map_keyUpdate {α : Type} (k : Nat) (v : α) (q : Nat) (hq : q ≠ k) :
    ∀ d : List (Nat × α),
      dictGet (d.map (fun kv => if kv.1 == k then (k, v) else kv)) q = dictGet d q := by
  intro d
  induction d with
  | nil => rfl
  | cons kv d ih =>
    rw [List.map_cons]
    by_cases h : kv.1 = k
    · have hmap : (if kv.1 == k then (k, v) else kv) = (k, v) := by simp [h]
      rw [hmap, dictGet_cons, dictGet_cons]
      have h1 : ¬ (k = q) := fun hc => hq hc.symm
      have h2 : ¬ (kv.1 = q) := fun hc => hq ((h ▸ hc) ▸ rfl)
      rw [if_neg h1, if_neg h2]
      exact ih
    · have hmap : (if kv.1 == k then (k, v) else kv) = kv := by simp [h]
      rw [hmap, dictGet_cons, dictGet_cons]
      by_cases h2 : kv.1 = q
      · rw [if_pos h2, if_pos h2]
      · rw [if_neg h2, if_neg h2]
        exact ih

theorem dictGet_dictSet_ne {α : Type} (d : List (Nat × α)) (k : Nat) (v : α) (q : Nat)
    (hq : q ≠ k) : dictGet (dictSet d k v) q = dictGet d q := by
  rw [dictSet]
  by_cases hh : dictHas d k
  · rw [if_pos hh]
    exact dictGet_map_keyUpdate k v q hq d
  · rw [if_neg hh]
    rw [dictGet_append_single k v q d (by simpa using hh), if_neg hq]

theorem dictGet_foldl_dictSet_isSome {α β : Type} (f : Nat × β → α) :
    ∀ (l : List (Nat × β)) (cv0 : List (Nat × α)) (p : Nat),
      (p ∈ dictKeys l ∨ (dictGet cv0 p).isSome) →
      (dictGet (l.foldl (fun cv ph => dictSet cv ph.1 (f ph)) cv0) p).isSome := by
  intro l
  induction l with
  | nil =>
    intro cv0 p hp
    rcases hp with hp | hp
    · simp [dictKeys] at hp
    · simpa using hp
  | cons ph l ih =>
    intro cv0 p hp
    rw [List.foldl_cons]
    apply ih
    by_cases hq : p = ph.1
    · right
      rw [hq, dictGet_dictSet_self]
      rfl
    · rcases hp with hp | hp
      · rw [dictKeys, List.map_cons, List.mem_cons] at hp
        rcases hp with hp | hp
        · exact absurd hp hq
        · exact Or.inl hp
      · right
        rw [dictGet_dictSet_ne _ _ _ _ hq]
        exact hp

theorem rhLoop_ok (cv : List (Nat × (Nat → Nat))) :
    ∀ (rest : List Nat) (cur : Int) (winner : List Nat),
      (∀ i ∈ rest, (dictGet cv i).isSome) → ∃ w, rhLoop cv rest cur winner = .ok w := by
  intro rest
  induction rest with
  | nil => intro cur winner _; exact ⟨winner, rfl⟩
  | cons i rest ih =>
    intro cur winner hsome
    obtain ⟨h, hh⟩ : ∃ h, dictGet cv i = some h := by
      have hi := hsome i (List.mem_cons_self i rest)
      cases hg : dictGet cv i with
      | none => rw [hg] at hi; simp at hi
      | some h => exact ⟨h, rfl⟩
    have hrest : ∀ j ∈ rest, (dictGet cv j).isSome :=
      fun j hj => hsome j (List.mem_cons_of_mem i hj)
    cases ht : findTop h with
    | none =>
      simp only [rhLoop, hh, ht]
      exact ih cur winner hrest
    | some t =>
      simp only [rhLoop, hh, ht]
      by_cases h1 : cur < (t : Int)
      · rw [if_pos h1]
        exact ih _ _ hrest
      · rw [if_neg h1]
        by_cases h2 : (t : Int) = cur
        · rw [if_pos h2]
          exact ih _ _ hrest
        · rw [if_neg h2]
          exact ih _ _ hrest

theorem rank_high_ok (cv : List (Nat × (Nat → Nat))) (cands : List Nat)
    (hne : cands ≠ []) (hsome : ∀ i ∈ cands, (dictGet cv i).isSome) :
    ∃ w, rank_high cv cands = .ok w := by
  cases cands with
  | nil => exact absurd rfl hne
  | cons i rest =>
    by_cases h2 : (i :: rest).length = 1
    · exact ⟨i :: rest, by rw [rank_high, if_neg (by simp), if_pos h2]⟩
    · rw [rank_high, if_neg (by simp), if_neg h2]
      exact rhLoop_ok cv (i :: rest) (-1) [] hsome

theorem cascade_ok (cv : List (Nat × (Nat → Nat))) (bs : Nat → List Nat)
    (allIds : List Nat) (hids : allIds ≠ [])
    (hpres : ∀ k, ∀ i ∈ bs k, (dictGet cv i).isSome)
    (hpresAll : ∀ i ∈ allIds, (dictGet cv i).isSome) :
    ∃ w,
      (if bs 0 ≠ [] then Except.ok (bs 0)
       else if bs 1 ≠ [] then (if (bs 1).length < 2 then Except.ok (bs 1) else rank_high cv (bs 1))
       else if bs 2 ≠ [] then (if (bs 2).length < 2 then Except.ok (bs 2) else rank_high cv (bs 2))
       else if bs 3 ≠ [] then (if (bs 3).length < 2 then Except.ok (bs 3) else rank_high cv (bs 3))
       else if bs 4 ≠ [] then (if (bs 4).length < 2 then Except.ok (bs 4) else rank_high cv (bs 4))
       else if bs 5 ≠ [] then (if (bs 5).length < 2 then Except.ok (bs 5) else rank_high cv (bs 5))
       else if bs 6 ≠ [] then (if (bs 6).length < 2 then Except.ok (bs 6) else rank_high cv (bs 6))
       else if bs 7 ≠ [] then (if (bs 7).length < 2 then Except.ok (bs 7) else rank_high cv (bs 7))
       else if bs 8 ≠ [] then (if (bs 8).length < 2 then Except.ok (bs 8) else rank_high cv (bs 8))
       else rank_high cv allIds) = .ok w := by
  have step : ∀ k : Nat, bs k ≠ [] →
      ∃ w, (if (bs k).length < 2 then Except.ok (bs k) else rank_high cv (bs k)) = .ok w := by
    intro k hk
    by_cases hl : (bs k).length < 2
    · exact ⟨bs k, by rw [if_pos hl]⟩
    · rw [if_neg hl]
      exact rank_high_ok cv (bs k) hk (hpres k)
  by_cases h0 : bs 0 = []
  case neg => exact ⟨bs 0, by rw [if_pos h0]⟩
  rw [if_neg (by simpa using h0)]
  by_cases h1 : bs 1 = []
  case neg => rw [if_pos h1]; exact step 1 h1
  rw [if_neg (by simpa using h1)]
  by_cases h2 : bs 2 = []
  case neg => rw [if_pos h2]; exact step 2 h2
  rw [if_neg (by simpa using h2)]
  by_cases h3 : bs 3 = []
  case neg => rw [if_pos h3]; exact step 3 h3
  rw [if_neg (by simpa using h3)]
  by_cases h4 : bs 4 = []
  case neg => rw [if_pos h4]; exact step 4 h4
  rw [if_neg (by simpa using h4)]
  by_cases h5 : bs 5 = []
  case neg => rw [if_pos h5]; exact step 5 h5
  rw [if_neg (by simpa using h5)]
  by_cases h6 : bs 6 = []
  case neg => rw [if_pos h6]; exact step 6 h6
  rw [if_neg (by simpa using h6)]
  by_cases h7 : bs 7 = []
  case neg => rw [if_pos h7]; exact step 7 h7
  rw [if_neg (by simpa using h7)]
  by_cases h8 : bs 8 = []
  case neg => rw [if_pos h8]; exact step 8 h8
  rw [if_neg (by simpa using h8)]
  exact rank_high_ok cv allIds hids hpresAll

/-- C4 counterexample.  On a session with one stored royal flush and a
previously empty histogram cache, `evaluateHands` returns the winner
`[1]` but leaves a different session state behind: the `card_val` field
gains the freshly computed histogram, so the state is not identical
before and after the call.  This refutes C4's "every other field is
identical before and after". -/
theorem evaluate_hands_pure_cex :
    (GSM.evaluate_hands c4State).1 = .ok [1]
    ∧ c4State.card_val.length = 0
    ∧ ((GSM.evaluate_hands c4State).2.card_val).length = 1
    ∧ (GSM.evaluate_hands c4State).2.card_val ≠ c4State.card_val := by
  refine ⟨by decide, rfl, rfl, ?_⟩
  intro hcon
  have h1 : (1 : Nat) = 0 := congrArg List.length hcon
  exact one_ne_zero h1

/-- C4 amended.  For every session with stored hands (well-formed
5-card hands, ranks 2..14), `evaluateHands` returns a winner list
without raising, and mutates exactly one field: the `card_val` histogram
cache is overwritten with the recomputed histograms; roster, stored
hands, ledger, folded and departed sets, deck, turn pointer and all
remaining fields are unchanged. -/
theorem evaluate_hands_amended : ∀ s : GSM,
    s.final_hands ≠ [] →
    (∀ ph ∈ s.final_hands, ph.2.length = 5 ∧ ∀ c ∈ ph.2, 2 ≤ c.value ∧ c.value ≤ 14) →
    ((∃ w, (GSM.evaluate_hands s).1 = .ok w)
     ∧ (GSM.evaluate_hands s).2.players = s.players
     ∧ (GSM.evaluate_hands s).2.final_hands = s.final_hands
     ∧ (GSM.evaluate_hands s).2.bets = s.bets
     ∧ (GSM.evaluate_hands s).2.folded_ids = s.folded_ids
     ∧ (GSM.evaluate_hands s).2.left_ids = s.left_ids
     ∧ (GSM.evaluate_hands s).2.deck = s.deck
     ∧ (GSM.evaluate_hands s).2.turn_id = s.turn_id
     ∧ (GSM.evaluate_hands s).2.next_id = s.next_id
     ∧ (GSM.evaluate_hands s).2.num_players = s.num_players
     ∧ (GSM.evaluate_hands s).2.wallet_amt = s.wallet_amt
     ∧ (GSM.evaluate_hands s).2.ante_amt = s.ante_amt
     ∧ (GSM.evaluate_hands s).2.card_val = evalCardVal s) := by
  intro s hne _hwf
  refine ⟨?_, rfl, rfl, rfl, rfl, rfl, rfl, rfl, rfl, rfl, rfl, rfl, rfl⟩
  have hpresK : ∀ p ∈ dictKeys s.final_hands, (dictGet (evalCardVal s) p).isSome :=
    fun p hp =>
      dictGet_foldl_dictSet_isSome (fun ph => get_counts ph.2) s.final_hands s.card_val p
        (Or.inl hp)
  have hpres : ∀ k, ∀ i ∈ winBucket s (evalCardVal s) k,
      (dictGet (evalCardVal s) i).isSome := by
    intro k i hik
    obtain ⟨ph, hmem, rfl⟩ := List.mem_map.mp hik
    have hmem' : ph ∈ s.final_hands := List.mem_of_mem_filter hmem
    exact hpresK ph.1 (List.mem_map.mpr ⟨ph, hmem', rfl⟩)
  have hids : s.final_hands.map (fun ph => ph.1) ≠ [] := by
    intro hcon
    cases hfh : s.final_hands with
    | nil => exact hne hfh
    | cons ph l => rw [hfh] at hcon; simp at hcon
  have hpresAll : ∀ i ∈ s.final_hands.map (fun ph => ph.1),
      (dictGet (evalCardVal s) i).isSome := fun i hi => hpresK i hi
  exact cascade_ok (evalCardVal s) (fun k => winBucket s (evalCardVal s) k)
    (s.final_hands.map (fun ph => ph.1)) hids hpres hpresAll

/-- Witness for the C4 amended theorem: a pair of kings versus a royal
flush; evaluation succeeds and the stored hands survive the call. -/
theorem evaluate_hands_amended_witness :
    (∃ w, (GSM.evaluate_hands w4State).1 = .ok w)
    ∧ (GSM.evaluate_hands w4State).2.final_hands = w4State.final_hands :=
  ⟨(evaluate_hands_amended w4State (by decide) (by decide)).1,
   (evaluate_hands_amended w4State (by decide) (by decide)).2.2.1⟩

/-! ### C5: straight detection -/

theorem countsFold_apply : ∀ (l : List Card) (h0 : Nat → Nat) (j : Nat),
    l.foldl (fun counts c => Function.update counts c.value (counts c.value + 1)) h0 j
      = h0 j + (l.filter (fun c => c.value == j)).length := by
  intro l
  induction l with
  | nil => intro h0 j; simp
  | cons c l ih =>
    intro h0 j
    rw [List.foldl_cons, ih, List.filter_cons]
    by_cases h : c.value = j
    · subst h
      rw [if_pos (by simp)]
      rw [Function.update_apply, if_pos rfl]
      simp only [List.length_cons]
      omega
    · rw [if_neg (by simpa using h)]
      rw [Function.update_apply, if_neg (fun hc => h hc.symm)]

theorem get_counts_apply (hand : List Card) (j : Nat) :
    get_counts hand j = ((hand.take 5).filter (fun c => c.value == j)).length := by
  rw [get_counts, countsFold_apply]
  omega

theorem get_counts_support (hand : List Card) (j : Nat)
    (h : get_counts hand j ≠ 0) : ∃ c ∈ hand.take 5, c.value = j := by
  rw [get_counts_apply] at h
  cases hf : (hand.take 5).filter (fun c => c.value == j) with
  | nil => rw [hf] at h; simp at h
  | cons c l =>
    have hc : c ∈ (hand.take 5).filter (fun c => c.value == j) := by
      rw [hf]; exact List.mem_cons_self c l
    have hmem := List.mem_of_mem_filter hc
    have hval := List.of_mem_filter hc
    exact ⟨c, hmem, by simpa using hval⟩

theorem filter_length_sum : ∀ l : List Card, (∀ c ∈ l, c.value < 15) →
    (∑ j ∈ Finset.range 15, (l.filter (fun c => c.value == j)).length) = l.length := by
  intro l
  induction l with
  | nil => intro _; simp
  | cons c l ih =>
    intro hwf
    have hc : c.value < 15 := hwf c (List.mem_cons_self c l)
    have hl : ∀ x ∈ l, x.value < 15 := fun x hx => hwf x (List.mem_cons_of_mem c hx)
    have hsplit : ∀ j, ((c :: l).filter (fun x => x.value == j)).length
        = (l.filter (fun x => x.value == j)).length + (if c.value = j then 1 else 0) := by
      intro j
      rw [List.filter_cons]
      by_cases h : c.value = j
      · rw [if_pos (by simpa using h), if_pos h]
        simp [Nat.add_comm]
      · rw [if_neg (by simpa using h), if_neg h]
        omega
    calc (∑ j ∈ Finset.range 15, ((c :: l).filter (fun x => x.value == j)).length)
        = ∑ j ∈ Finset.range 15,
            ((l.filter (fun x => x.value == j)).length + if c.value = j then 1 else 0) := by
          exact Finset.sum_congr rfl (fun j _ => hsplit j)
      _ = (∑ j ∈ Finset.range 15, (l.filter (fun x => x.value == j)).length)
            + ∑ j ∈ Finset.range 15, (if c.value = j then 1 else 0) := by
          rw [Finset.sum_add_distrib]
      _ = l.length + 1 := by
          rw [ih hl]
          congr 1
          rw [Finset.sum_ite_eq (Finset.range 15) c.value (fun _ => 1)]
          simp [hc]
      _ = (c :: l).length := by simp

theorem get_counts_total_sum (hand : List Card) (hlen : hand.length = 5)
    (hwf : ∀ c ∈ hand, c.value ≤ 14) :
    (∑ j ∈ Finset.range 15, get_counts hand j) = 5 := by
  have htake : hand.take 5 = hand := List.take_of_length_le (by omega)
  calc (∑ j ∈ Finset.range 15, get_counts hand j)
      = ∑ j ∈ Finset.range 15, ((hand.take 5).filter (fun c => c.value == j)).length := by
        exact Finset.sum_congr rfl (fun j _ => get_counts_apply hand j)
    _ = (hand.take 5).length := by
        apply filter_length_sum
        intro c hc
        rw [htake] at hc
        have := hwf c hc
        omega
    _ = 5 := by rw [htake, hlen]

theorem straightInner_true_iff (counts : Nat → Nat) (k : Nat) :
    straightInner counts k = true ↔
      (k + 4 ≤ 14 ∧ counts (k + 1) ≠ 0 ∧ counts (k + 2) ≠ 0
        ∧ counts (k + 3) ≠ 0 ∧ counts (k + 4) ≠ 0) := by
  rw [straightInner]
  by_cases h1 : 14 < k + 1 ∨ counts (k + 1) = 0
  · rw [if_pos h1]
    simp only [Bool.false_eq_true, false_iff]
    intro ⟨ha, hb, _, _, _⟩
    rcases h1 with h1 | h1
    · omega
    · exact hb h1
  · rw [if_neg h1]
    by_cases h2 : 14 < k + 2 ∨ counts (k + 2) = 0
    · rw [if_pos h2]
      simp only [Bool.false_eq_true, false_iff]
      intro ⟨ha, _, hb, _, _⟩
      rcases h2 with h2 | h2
      · omega
      · exact hb h2
    · rw [if_neg h2]
      by_cases h3 : 14 < k + 3 ∨ counts (k + 3) = 0
      · rw [if_pos h3]
        simp only [Bool.false_eq_true, false_iff]
        intro ⟨ha, _, _, hb, _⟩
        rcases h3 with h3 | h3
        · omega
        · exact hb h3
      · rw [if_neg h3]
        by_cases h4 : 14 < k + 4 ∨ counts (k + 4) = 0
        · rw [if_pos h4]
          simp only [Bool.false_eq_true, false_iff]
          intro ⟨ha, _, _, _, hb⟩
          rcases h4 with h4 | h4
          · omega
          · exact hb h4
        · rw [if_neg h4]
          push_neg at h1 h2 h3 h4
          simp only [true_iff]
          exact ⟨by omega, h1.2, h2.2, h3.2, h4.2⟩

theorem straightOuterAux_true (counts : Nat → Nat) :
    ∀ (fuel i : Nat), straightOuterAux counts fuel i = true →
      ∃ k, i ≤ k ∧ counts k ≠ 0 ∧ counts k ≤ 2 ∧ straightInner counts k = true := by
  intro fuel
  induction fuel with
  | zero =>
    intro i h
    rw [straightOuterAux] at h
    exact absurd h (by simp)
  | succ fuel ih =>
    intro i h
    rw [straightOuterAux] at h
    by_cases h0 : counts i = 0
    · rw [if_pos h0] at h
      obtain ⟨k, hk, hrest⟩ := ih (i + 1) h
      exact ⟨k, by omega, hrest⟩
    · rw [if_neg h0] at h
      by_cases h2 : 2 < counts i
      · rw [if_pos h2] at h
        exact absurd h (by simp)
      · rw [if_neg h2] at h
        by_cases hin : straightInner counts i = true
        · exact ⟨i, Nat.le_refl i, h0, by omega, hin⟩
        · rw [if_neg (by simpa using hin)] at h
          obtain ⟨k, hk, hrest⟩ := ih (i + 1) h
          exact ⟨k, by omega, hrest⟩

theorem get_counts_indicator (hand : List Card) (hlen : hand.length = 5)
    (hwf : ∀ c ∈ hand, 2 ≤ c.value ∧ c.value ≤ 14)
    (i : Nat) (hi14 : i + 4 ≤ 14)
    (hrun : ∀ d, d ≤ 4 → get_counts hand (i + d) ≠ 0) :
    get_counts hand = fun j => if i ≤ j ∧ j ≤ i + 4 then 1 else 0 := by
  have hwf14 : ∀ c ∈ hand, c.value ≤ 14 := fun c hc => (hwf c hc).2
  have htotal := get_counts_total_sum hand hlen hwf14
  have hcardS : (Finset.Icc i (i + 4)).card = 5 := by rw [Nat.card_Icc]; omega
  have hsubS : Finset.Icc i (i + 4) ⊆ Finset.range 15 := by
    intro j hj
    rw [Finset.mem_Icc] at hj
    rw [Finset.mem_range]
    omega
  have hge1 : ∀ j ∈ Finset.Icc i (i + 4), 1 ≤ get_counts hand j := by
    intro j hj
    rw [Finset.mem_Icc] at hj
    have hd := hrun (j - i) (by omega)
    have hji : i + (j - i) = j := by omega
    rw [hji] at hd
    omega
  have hsumS_ge : 5 ≤ ∑ j ∈ Finset.Icc i (i + 4), get_counts hand j := by
    calc (5 : Nat) = ∑ _j ∈ Finset.Icc i (i + 4), 1 := by
          rw [Finset.sum_const, hcardS]
          simp
        _ ≤ ∑ j ∈ Finset.Icc i (i + 4), get_counts hand j := Finset.sum_le_sum hge1
  have hsumS_le : (∑ j ∈ Finset.Icc i (i + 4), get_counts hand j) ≤ 5 := by
    rw [← htotal]
    exact Finset.sum_le_sum_of_subset hsubS
  have hsumS : (∑ j ∈ Finset.Icc i (i + 4), get_counts hand j) = 5 :=
    le_antisymm hsumS_le hsumS_ge
  have hzero_out : ∀ j ∈ Finset.range 15, j ∉ Finset.Icc i (i + 4) →
      get_counts hand j = 0 := by
    have hsdiff : (∑ j ∈ Finset.range 15 \ Finset.Icc i (i + 4), get_counts hand j) = 0 := by
      have hs := Finset.sum_sdiff (f := get_counts hand) hsubS
      omega
    intro j hj hjS
    exact Finset.sum_eq_zero_iff.mp hsdiff j (Finset.mem_sdiff.mpr ⟨hj, hjS⟩)
  have hone : ∀ j ∈ Finset.Icc i (i + 4), get_counts hand j = 1 := by
    intro j hj
    have herase : (∑ x ∈ (Finset.Icc i (i + 4)).erase j, get_counts hand x)
        + get_counts hand j = 5 := by
      rw [Finset.sum_erase_add _ _ hj, hsumS]
    have hcard4 : ((Finset.Icc i (i + 4)).erase j).card = 4 := by
      rw [Finset.card_erase_of_mem hj, hcardS]
    have herase_ge : 4 ≤ ∑ x ∈ (Finset.Icc i (i + 4)).erase j, get_counts hand x := by
      calc (4 : Nat) = ∑ _x ∈ (Finset.Icc i (i + 4)).erase j, 1 := by
            rw [Finset.sum_const, hcard4]
            simp
          _ ≤ _ := Finset.sum_le_sum
            (fun x hx => hge1 x (Finset.mem_of_mem_erase hx))
    have h1 := hge1 j hj
    omega
  funext j
  by_cases hjS : i ≤ j ∧ j ≤ i + 4
  · rw [if_pos hjS]
    exact hone j (Finset.mem_Icc.mpr hjS)
  · rw [if_neg hjS]
    by_cases hj15 : j < 15
    · exact hzero_out j (Finset.mem_range.mpr hj15)
        (fun hc => hjS (Finset.mem_Icc.mp hc))
    · by_contra hne
      obtain ⟨c, hc, hcv⟩ := get_counts_support hand j hne
      have hcw := hwf c (List.take_subset 5 hand hc)
      omega

/-- C5 (confirmed).  Over every well-formed stored 5-card hand (ranks
2..14), `is_straight` on the hand's rank histogram is true iff five
consecutive histogram buckets within ranks 2..14 are occupied;
straight-flush detection uses exactly this straight test as its straight
component; the ace-high straight 10,J,Q,K,A is detected and the low-ace
wheel A-2-3-4-5 is not. -/
theorem is_straight_characterization :
    (∀ hand : List Card, wfHand hand →
      (is_straight (get_counts hand) = true ↔
        ∃ i, 2 ≤ i ∧ i + 4 ≤ 14 ∧ ∀ d, d ≤ 4 → get_counts hand (i + d) ≠ 0))
    ∧ (∀ (hand : List Card) (counts : Nat → Nat),
        is_straight_flush hand counts = (is_flush hand && is_straight counts))
    ∧ is_straight (get_counts
        [Card.mk 10 0, Card.mk 11 1, Card.mk 12 2, Card.mk 13 3, Card.mk 14 0]) = true
    ∧ is_straight (get_counts
        [Card.mk 14 0, Card.mk 2 1, Card.mk 3 2, Card.mk 4 3, Card.mk 5 0]) = false := by
  refine ⟨?_, fun hand counts => rfl, by decide, by decide⟩
  intro hand hwfh
  obtain ⟨hlen, hwf⟩ := hwfh
  constructor
  · intro htrue
    obtain ⟨k, _, hk0, hk2, hkin⟩ := straightOuterAux_true (get_counts hand) 15 0 htrue
    obtain ⟨hk14, hn1, hn2, hn3, hn4⟩ := (straightInner_true_iff _ k).mp hkin
    obtain ⟨c, hc, hcv⟩ := get_counts_support hand k hk0
    have hcw := hwf c (List.take_subset 5 hand hc)
    refine ⟨k, by omega, hk14, ?_⟩
    intro d hd
    interval_cases d
    · simpa using hk0
    · simpa using hn1
    · simpa using hn2
    · simpa using hn3
    · simpa using hn4
  · intro hex
    obtain ⟨i, hi2, hi14, hrun⟩ := hex
    have hind := get_counts_indicator hand hlen hwf i hi14 hrun
    rw [hind]
    have hi10 : i ≤ 10 := by omega
    interval_cases i <;> decide

/-- Witness for the C5 characterization at a concrete well-formed hand:
9-high straight 5,6,7,8,9. -/
theorem is_straight_characterization_witness :
    is_straight (get_counts
        [Card.mk 5 0, Card.mk 6 1, Card.mk 7 2, Card.mk 8 3, Card.mk 9 0]) = true ↔
      ∃ i, 2 ≤ i ∧ i + 4 ≤ 14 ∧ ∀ d, d ≤ 4 →
        get_counts [Card.mk 5 0, Card.mk 6 1, Card.mk 7 2, Card.mk 8 3, Card.mk 9 0]
          (i + d) ≠ 0 :=
  is_straight_characterization.1
    [Card.mk 5 0, Card.mk 6 1, Card.mk 7 2, Card.mk 8 3, Card.mk 9 0]
    ⟨by decide, by decide⟩
